import Mathlib

/-!
# Linear transforms (`common/math/linearspace3.h`) and diffuse scattering models
(`renderer/brdfs/lambertian.h`)

A shallow embedding of the 3x3 linear-transform type `LinearSpace3<T>` and of the
operations defined on it, and of the classes `Lambertian`, `LambertianTransmission` and
`LambertianHorizon` with their `eval`, `sample` and `pdf` methods.  The scalar type of the
C++ code is a type parameter carrying (ordered) field operations: every statement below
is about exact arithmetic.  The transcendental and root functions the headers call
(`sin`, `cos`, `rsqrt`), the constant `pi` and the hemisphere sampler are parameters of
the functions that use them.
-/

namespace embree

/-- Modelled from the spec: `vec3.h` is not among the sources.  An ordered 3-component
numeric tuple with components `x`, `y`, `z`. -/
@[ext]
structure Vec3 (T : Type) where
  x : T
  y : T
  z : T
deriving DecidableEq

/-- Modelled from the spec: `quaternion.h` is not among the sources.  A quaternion value
with the four named scalar components `r`, `i`, `j`, `k`. -/
@[ext]
structure QuaternionT (T : Type) where
  r : T
  i : T
  j : T
  k : T
deriving DecidableEq

section VectorAlgebra

variable {T : Type} [Field T]

/-- Modelled from the spec: component-wise vector addition (`vec3.h`, `operator+`). -/
def Vec3.add (a b : Vec3 T) : Vec3 T := ⟨a.x + b.x, a.y + b.y, a.z + b.z⟩

/-- Modelled from the spec: component-wise vector subtraction (`vec3.h`, `operator-`). -/
def Vec3.sub (a b : Vec3 T) : Vec3 T := ⟨a.x - b.x, a.y - b.y, a.z - b.z⟩

/-- Modelled from the spec: component-wise negation (`vec3.h`, unary `operator-`). -/
def Vec3.neg (a : Vec3 T) : Vec3 T := ⟨-a.x, -a.y, -a.z⟩

/-- Modelled from the spec: scalar-times-vector multiply (`vec3.h`, `operator*(T, Vec3)`). -/
def Vec3.smul (a : T) (b : Vec3 T) : Vec3 T := ⟨a * b.x, a * b.y, a * b.z⟩

/-- Modelled from the spec: vector-times-scalar multiply (`vec3.h`, `operator*(Vec3, T)`). -/
def Vec3.muls (a : Vec3 T) (b : T) : Vec3 T := ⟨a.x * b, a.y * b, a.z * b⟩

/-- Modelled from the spec: dot product of two vectors (`vec3.h`, `dot`). -/
def dot (a b : Vec3 T) : T := a.x * b.x + a.y * b.y + a.z * b.z

/-- Modelled from the spec: cross product of two vectors (`vec3.h`, `cross`). -/
def cross (a b : Vec3 T) : Vec3 T :=
  ⟨a.y * b.z - a.z * b.y, a.z * b.x - a.x * b.z, a.x * b.y - a.y * b.x⟩

/-- Modelled from the spec: `normalize` (`vec3.h`) scales a vector by the reciprocal square
root of its squared length.  The root function `rsqrt` is a parameter. -/
def normalize (rsqrt : T → T) (a : Vec3 T) : Vec3 T := a.muls (rsqrt (dot a a))

/-- Modelled from the spec: `select` (`vec3.h`) returns its second argument when the flag
holds and its third otherwise. -/
def select (s : Bool) (t f : Vec3 T) : Vec3 T := if s then t else f

/-- Modelled from the spec: the scalar reciprocal `rcp` (`math.h` is not among the
sources), the reciprocal of the determinant in `inverse()`. -/
def rcp (a : T) : T := 1 / a

end VectorAlgebra

/-- The type `LinearSpace3<T>`: the three column vectors of the matrix. -/
@[ext]
structure LinearSpace3 (T : Type) where
  vx : Vec3 T
  vy : Vec3 T
  vz : Vec3 T
deriving DecidableEq

namespace LinearSpace3

section Algebra

variable {T : Type} [Field T]

/-- Construction from quaternion: `LinearSpace3(const QuaternionT<T>& q)`. -/
def ofQuaternion (q : QuaternionT T) : LinearSpace3 T :=
  { vx := ⟨q.r * q.r + q.i * q.i - q.j * q.j - q.k * q.k,
           2 * (q.i * q.j + q.r * q.k),
           2 * (q.i * q.k - q.r * q.j)⟩
    vy := ⟨2 * (q.i * q.j - q.r * q.k),
           q.r * q.r - q.i * q.i + q.j * q.j - q.k * q.k,
           2 * (q.j * q.k + q.r * q.i)⟩
    vz := ⟨2 * (q.i * q.k + q.r * q.j),
           2 * (q.j * q.k - q.r * q.i),
           q.r * q.r - q.i * q.i - q.j * q.j + q.k * q.k⟩ }

/-- Matrix construction from row major data (the nine-scalar constructor). -/
def ofRows (m00 m01 m02 m10 m11 m12 m20 m21 m22 : T) : LinearSpace3 T :=
  { vx := ⟨m00, m10, m20⟩, vy := ⟨m01, m11, m21⟩, vz := ⟨m02, m12, m22⟩ }

/-- The determinant `det()`: `dot(vx, cross(vy, vz))`. -/
def det (m : LinearSpace3 T) : T := dot m.vx (cross m.vy m.vz)

/-- The transposed matrix `transposed()`. -/
def transposed (m : LinearSpace3 T) : LinearSpace3 T :=
  ofRows m.vx.x m.vx.y m.vx.z m.vy.x m.vy.y m.vy.z m.vz.x m.vz.y m.vz.z

/-- The adjoint matrix `adjoint()`. -/
def adjoint (m : LinearSpace3 T) : LinearSpace3 T :=
  transposed ⟨cross m.vy m.vz, cross m.vz m.vx, cross m.vx m.vy⟩

/-- Scalar times transform: `operator*(const T&, const LinearSpace3<T>&)`. -/
def smul (a : T) (b : LinearSpace3 T) : LinearSpace3 T :=
  ⟨Vec3.smul a b.vx, Vec3.smul a b.vy, Vec3.smul a b.vz⟩

/-- The inverse matrix `inverse()`: `rcp(det()) * adjoint()`. -/
def inverse (m : LinearSpace3 T) : LinearSpace3 T := smul (rcp m.det) m.adjoint

/-- First row of the matrix, `row0()`. -/
def row0 (m : LinearSpace3 T) : Vec3 T := ⟨m.vx.x, m.vy.x, m.vz.x⟩

/-- Second row of the matrix, `row1()`. -/
def row1 (m : LinearSpace3 T) : Vec3 T := ⟨m.vx.y, m.vy.y, m.vz.y⟩

/-- Third row of the matrix, `row2()`. -/
def row2 (m : LinearSpace3 T) : Vec3 T := ⟨m.vx.z, m.vy.z, m.vz.z⟩

/-- The zero matrix `LinearSpace3(ZeroTy)`. -/
def zero : LinearSpace3 T := ⟨⟨0, 0, 0⟩, ⟨0, 0, 0⟩, ⟨0, 0, 0⟩⟩

/-- The identity matrix `LinearSpace3(OneTy)`. -/
def one : LinearSpace3 T := ⟨⟨1, 0, 0⟩, ⟨0, 1, 0⟩, ⟨0, 0, 1⟩⟩

/-- The matrix for scaling, `scale(s)`. -/
def scale (s : Vec3 T) : LinearSpace3 T :=
  ofRows s.x 0 0
         0 s.y 0
         0 0 s.z

/-- The matrix for rotation around an arbitrary axis, `rotate(_u, r)`.  The functions
`rsqrt`, `sin` and `cos` the header calls are parameters. -/
def rotate (rsqrt sin cos : T → T) (_u : Vec3 T) (r : T) : LinearSpace3 T :=
  let u := normalize rsqrt _u
  let s := sin r
  let c := cos r
  ofRows (u.x*u.x+(1-u.x*u.x)*c) (u.x*u.y*(1-c)-u.z*s) (u.x*u.z*(1-c)+u.y*s)
         (u.x*u.y*(1-c)+u.z*s) (u.y*u.y+(1-u.y*u.y)*c) (u.y*u.z*(1-c)-u.x*s)
         (u.x*u.z*(1-c)-u.y*s) (u.y*u.z*(1-c)+u.x*s) (u.z*u.z+(1-u.z*u.z)*c)

/-- Unary minus on transforms. -/
def neg (a : LinearSpace3 T) : LinearSpace3 T := ⟨a.vx.neg, a.vy.neg, a.vz.neg⟩

/-- Component-wise sum of two transforms. -/
def add (a b : LinearSpace3 T) : LinearSpace3 T :=
  ⟨a.vx.add b.vx, a.vy.add b.vy, a.vz.add b.vz⟩

/-- Component-wise difference of two transforms. -/
def sub (a b : LinearSpace3 T) : LinearSpace3 T :=
  ⟨a.vx.sub b.vx, a.vy.sub b.vy, a.vz.sub b.vz⟩

/-- Transform times vector: `operator*(const LinearSpace3<T>&, const Vec3<T>&)`. -/
def mulVec (a : LinearSpace3 T) (b : Vec3 T) : Vec3 T :=
  ((Vec3.smul b.x a.vx).add (Vec3.smul b.y a.vy)).add (Vec3.smul b.z a.vz)

/-- Transform times transform: `operator*(const LinearSpace3<T>&, const LinearSpace3<T>&)`. -/
def mul (a b : LinearSpace3 T) : LinearSpace3 T :=
  ⟨mulVec a b.vx, mulVec a b.vy, mulVec a b.vz⟩

/-- Transform divided by transform: `a * rcp(b)`, where `rcp` of a transform is its
inverse. -/
def div (a b : LinearSpace3 T) : LinearSpace3 T := mul a b.inverse

end Algebra

end LinearSpace3

section Transforms

variable {T : Type} [Field T]

/-- The function `xfmPoint(s, a)`. -/
def xfmPoint (s : LinearSpace3 T) (a : Vec3 T) : Vec3 T :=
  ((Vec3.smul a.x s.vx).add (Vec3.smul a.y s.vy)).add (Vec3.smul a.z s.vz)

/-- The function `xfmVector(s, a)`. -/
def xfmVector (s : LinearSpace3 T) (a : Vec3 T) : Vec3 T :=
  ((Vec3.smul a.x s.vx).add (Vec3.smul a.y s.vy)).add (Vec3.smul a.z s.vz)

/-- The function `xfmNormal(s, a)`: `xfmVector(s.inverse().transposed(), a)`. -/
def xfmNormal (s : LinearSpace3 T) (a : Vec3 T) : Vec3 T :=
  xfmVector s.inverse.transposed a

end Transforms

section Frame

variable {T : Type} [LinearOrderedField T]

/-- The function `frame(N)`: constructs a coordinate frame from a normal.  The root
function `rsqrt` used by `normalize` is a parameter. -/
def frame (rsqrt : T → T) (N : Vec3 T) : LinearSpace3 T :=
  let dx0 := cross ⟨1, 0, 0⟩ N
  let dx1 := cross ⟨0, 1, 0⟩ N
  let dx := normalize rsqrt (select (decide (dot dx0 dx0 > dot dx1 dx1)) dx0 dx1)
  let dy := normalize rsqrt (cross N dx)
  ⟨dx, dy, N⟩

end Frame

/-! ## Debug text (`operator<<` of `common/math/linearspace3.h`) -/

/-- The text `operator<<` writes to the stream for a transform.  The debug text of a
vector (`operator<<` of `vec3.h`, not among the sources) is the parameter `text`. -/
def LinearSpace3.output {T : Type} (text : Vec3 T → String) (m : LinearSpace3 T) : String :=
  "\x7b vx = " ++ text m.vx ++ ", vy = " ++ text m.vy ++ ", vz = " ++ text m.vz ++ "\x7d"

/-- A debug text for vectors of natural numbers, `(x, y, z)`. -/
def textN (v : Vec3 ℕ) : String :=
  "(" ++ toString v.x ++ ", " ++ toString v.y ++ ", " ++ toString v.z ++ ")"

/-! ## Diffuse scattering models (`renderer/brdfs/lambertian.h`)

The scalar type `float` is the parameter `K` with ordered-field operations; the constant
`pi` and the hemisphere sampler `cosineSampleHemisphere` are parameters of the functions
that use them. -/

/-- Modelled from the spec: `col3.h` is not among the sources.  A color tuple with the
same algebra as the vector tuple, components `r`, `g`, `b`. -/
@[ext]
structure Col3 (K : Type) where
  r : K
  g : K
  b : K
deriving DecidableEq

/-- Modelled from the spec: `vec2.h` is not among the sources.  The pair of uniform
numbers handed to `sample`. -/
@[ext]
structure Vec2 (K : Type) where
  x : K
  y : K
deriving DecidableEq

/-- Modelled from the spec: the differential-geometry record, of which the scattering
models read the geometric normal `Ng` and the shading normal `Ns`. -/
structure DifferentialGeometry (K : Type) where
  Ng : Vec3 K
  Ns : Vec3 K
deriving DecidableEq

/-- Modelled from the spec: `Sample3f`, a paired direction-plus-density value carrying a
sampled direction. -/
@[ext]
structure Sample3 (K : Type) where
  value : Vec3 K
  pdf : K
deriving DecidableEq

/-- Modelled from the spec: the classification tag of a scattering model (`brdf.h` is not
among the sources); only the two tags this header uses. -/
inductive BRDFType where
  | DIFFUSE_REFLECTION
  | DIFFUSE_TRANSMISSION
deriving DecidableEq

section ScatteringHelpers

variable {K : Type} [LinearOrderedField K]

/-- Modelled from the spec: the zero color, `Col3f(zero)`. -/
def Col3.zero : Col3 K := ⟨0, 0, 0⟩

/-- Modelled from the spec: color-times-scalar multiply (`operator*(Col3, float)`). -/
def Col3.muls (a : Col3 K) (b : K) : Col3 K := ⟨a.r * b, a.g * b, a.b * b⟩

/-- Modelled from the spec: scalar-times-color multiply (`operator*(float, Col3)`). -/
def Col3.smul (a : K) (b : Col3 K) : Col3 K := ⟨a * b.r, a * b.g, a * b.b⟩

/-- Modelled from the spec: unary plus on vectors (`vec3.h`), component-wise. -/
def Vec3.pos (a : Vec3 K) : Vec3 K := ⟨a.x, a.y, a.z⟩

/-- Modelled from the spec: the one-argument `clamp` (`math.h` is not among the sources)
clamps its argument into `[0,1]`.  It is the same function on the blend ratios, which the
spec describes as clamped into `[0,1]`, and on the cosine terms, where it is `max(0, .)`
for every cosine that is at most `1`. -/
def clamp (x : K) : K := max 0 (min x 1)

/-- Modelled from the spec: `sqr` (`math.h`), the square of a scalar. -/
def sqr (x : K) : K := x * x

/-- Modelled from the spec: the constant `one_over_pi`, the reciprocal of `pi`. -/
def one_over_pi (pi : K) : K := 1 / pi

/-- Modelled from the spec: `cosineSampleHemispherePDF(s, N)`, the cosine-weighted density
`dot(s, N) / pi` about the axis `N`, matching the hemisphere sampler. -/
def cosineSampleHemispherePDF (pi : K) (s N : Vec3 K) : K := dot s N / pi

end ScatteringHelpers

/-- The class `Lambertian`: the tag of the `BRDF` base and the reflectivity `R`. -/
structure Lambertian (K : Type) where
  type : BRDFType
  R : Col3 K
deriving DecidableEq

/-- The class `LambertianTransmission`: the transmission normal `N` and transmittance `T`. -/
structure LambertianTransmission (K : Type) where
  type : BRDFType
  N : Vec3 K
  T : Col3 K
deriving DecidableEq

/-- The class `LambertianHorizon`: frame `dx`, `dy`, `dz`, reflectivity `R`, the four
horizon angles, the blend width and the strength. -/
structure LambertianHorizon (K : Type) where
  type : BRDFType
  dx : Vec3 K
  dy : Vec3 K
  dz : Vec3 K
  R : Col3 K
  nhx : K
  phx : K
  nhy : K
  phy : K
  blend : K
  strength : K
deriving DecidableEq

section ScatteringModels

variable {K : Type} [LinearOrderedField K]

/-- The constructor `Lambertian(R, type = DIFFUSE_REFLECTION)` with its default tag. -/
def Lambertian.new (R : Col3 K) : Lambertian K := ⟨BRDFType.DIFFUSE_REFLECTION, R⟩

/-- The constructor `LambertianTransmission(N, T)`. -/
def LambertianTransmission.new (N : Vec3 K) (T : Col3 K) : LambertianTransmission K :=
  ⟨BRDFType.DIFFUSE_TRANSMISSION, N, T⟩

/-- The constructor `LambertianHorizon(dx, dy, dz, R, nhx, phx, nhy, phy, blend, strength)`. -/
def LambertianHorizon.new (dx dy dz : Vec3 K) (R : Col3 K) (nhx phx nhy phy blend strength : K) :
    LambertianHorizon K :=
  ⟨BRDFType.DIFFUSE_REFLECTION, dx, dy, dz, R, nhx, phx, nhy, phy, blend, strength⟩

/-- The method `Lambertian::eval`. -/
def Lambertian.eval (pi : K) (b : Lambertian K) (_wo : Vec3 K) (dg : DifferentialGeometry K)
    (wi : Vec3 K) : Col3 K :=
  (b.R.muls (1 / pi)).muls (clamp (dot wi dg.Ns))

/-- The method `Lambertian::sample`: the returned color and the sample written to `wi`. -/
def Lambertian.sample (pi : K) (cosineSampleHemisphere : K → K → Vec3 K → Sample3 K)
    (b : Lambertian K) (wo : Vec3 K) (dg : DifferentialGeometry K) (s : Vec2 K) :
    Col3 K × Sample3 K :=
  let wi := cosineSampleHemisphere s.x s.y dg.Ns
  (b.eval pi wo dg wi.value, wi)

/-- The method `Lambertian::pdf`. -/
def Lambertian.pdf (pi : K) (_b : Lambertian K) (_wo : Vec3 K) (dg : DifferentialGeometry K)
    (wi : Vec3 K) : K :=
  cosineSampleHemispherePDF pi wi dg.Ns

/-- The method `LambertianTransmission::eval`. -/
def LambertianTransmission.eval (pi : K) (b : LambertianTransmission K) (_wo : Vec3 K)
    (dg : DifferentialGeometry K) (wi : Vec3 K) : Col3 K :=
  if dot wi dg.Ng.neg ≤ 0 then Col3.zero
  else (b.T.muls (one_over_pi pi)).muls (clamp (dot wi b.N.neg))

/-- The method `LambertianTransmission::sample`: the returned color and the sample written
to `wi`. -/
def LambertianTransmission.sample (pi : K)
    (cosineSampleHemisphere : K → K → Vec3 K → Sample3 K) (b : LambertianTransmission K)
    (wo : Vec3 K) (dg : DifferentialGeometry K) (s : Vec2 K) : Col3 K × Sample3 K :=
  let wi := cosineSampleHemisphere s.x s.y b.N.neg
  (b.eval pi wo dg wi.value, wi)

/-- The method `LambertianTransmission::pdf`. -/
def LambertianTransmission.pdf (pi : K) (b : LambertianTransmission K) (_wo : Vec3 K)
    (_dg : DifferentialGeometry K) (wi : Vec3 K) : K :=
  cosineSampleHemispherePDF pi wi b.N.neg

/-- The method `LambertianHorizon::eval`. -/
def LambertianHorizon.eval (pi : K) (b : LambertianHorizon K) (_wo : Vec3 K)
    (dg : DifferentialGeometry K) (wi : Vec3 K) : Col3 K :=
  if dot wi dg.Ng ≤ 0 then Col3.zero
  else
    let znx := clamp ((dot wi dg.Ns - b.strength * b.nhx + b.blend) / (2 * b.blend))
    let wnx := sqr (clamp (dot wi b.dx.neg))
    let zpx := clamp ((dot wi dg.Ns - b.strength * b.phx + b.blend) / (2 * b.blend))
    let wpx := sqr (clamp (dot wi b.dx.pos))
    let zny := clamp ((dot wi dg.Ns - b.strength * b.nhy + b.blend) / (2 * b.blend))
    let wny := sqr (clamp (dot wi b.dy.neg))
    let zpy := clamp ((dot wi dg.Ns - b.strength * b.phy + b.blend) / (2 * b.blend))
    let wpy := sqr (clamp (dot wi b.dy.pos))
    let w := wnx + wpx + wny + wpy
    if w = 0 then (b.R.muls (one_over_pi pi)).muls (clamp (dot wi b.dz))
    else
      let z := (wnx * znx + wpx * zpx + wny * zny + wpy * zpy) / w
      ((Col3.smul z b.R).muls (one_over_pi pi)).muls (clamp (dot wi b.dz))

/-- The method `LambertianHorizon::sample`: the returned color and the sample written to
`wi`. -/
def LambertianHorizon.sample (pi : K) (cosineSampleHemisphere : K → K → Vec3 K → Sample3 K)
    (b : LambertianHorizon K) (wo : Vec3 K) (dg : DifferentialGeometry K) (s : Vec2 K) :
    Col3 K × Sample3 K :=
  let wi := cosineSampleHemisphere s.x s.y b.dz
  (b.eval pi wo dg wi.value, wi)

/-- The method `LambertianHorizon::pdf`. -/
def LambertianHorizon.pdf (pi : K) (b : LambertianHorizon K) (_wo : Vec3 K)
    (_dg : DifferentialGeometry K) (wi : Vec3 K) : K :=
  cosineSampleHemispherePDF pi wi b.dz

/-- The value of the local `w` of `LambertianHorizon::eval`: the sum of the four tangent
weights. -/
def LambertianHorizon.evalW (b : LambertianHorizon K) (wi : Vec3 K) : K :=
  sqr (clamp (dot wi b.dx.neg)) + sqr (clamp (dot wi b.dx.pos)) +
    sqr (clamp (dot wi b.dy.neg)) + sqr (clamp (dot wi b.dy.pos))

/-- The value of the local `z` of `LambertianHorizon::eval`: the weighted average of the
four occlusion factors. -/
def LambertianHorizon.evalZ (b : LambertianHorizon K) (dg : DifferentialGeometry K)
    (wi : Vec3 K) : K :=
  (sqr (clamp (dot wi b.dx.neg)) *
      clamp ((dot wi dg.Ns - b.strength * b.nhx + b.blend) / (2 * b.blend)) +
    sqr (clamp (dot wi b.dx.pos)) *
      clamp ((dot wi dg.Ns - b.strength * b.phx + b.blend) / (2 * b.blend)) +
    sqr (clamp (dot wi b.dy.neg)) *
      clamp ((dot wi dg.Ns - b.strength * b.nhy + b.blend) / (2 * b.blend)) +
    sqr (clamp (dot wi b.dy.pos)) *
      clamp ((dot wi dg.Ns - b.strength * b.phy + b.blend) / (2 * b.blend))) / b.evalW wi

end ScatteringModels

/-- A sample hemisphere sampler over the rationals: it returns the axis itself, with the
cosine-weighted density of that direction for `pi = 22/7`. -/
def hemisphereQ (_u _v : ℚ) (N : Vec3 ℚ) : Sample3 ℚ := ⟨N, dot N N / (22 / 7)⟩

/-! ## Predicates used to state the properties -/

section Predicates

variable {T : Type} [Field T]

/-- The columns of a transform are unit-length (squared length `1`) and mutually
orthogonal (every pair has dot product `0`). -/
def LinearSpace3.Orthonormal (m : LinearSpace3 T) : Prop :=
  dot m.vx m.vx = 1 ∧ dot m.vy m.vy = 1 ∧ dot m.vz m.vz = 1 ∧
  dot m.vx m.vy = 0 ∧ dot m.vx m.vz = 0 ∧ dot m.vy m.vz = 0

instance LinearSpace3.decidableOrthonormal [DecidableEq T] (m : LinearSpace3 T) :
    Decidable m.Orthonormal := by
  unfold LinearSpace3.Orthonormal
  infer_instance

/-- A vector is aligned with a coordinate axis: at most one of its components is
non-zero. -/
def AxisAligned (n : Vec3 T) : Prop :=
  (n.y = 0 ∧ n.z = 0) ∨ (n.x = 0 ∧ n.z = 0) ∨ (n.x = 0 ∧ n.y = 0)

instance decidableAxisAligned [DecidableEq T] (n : Vec3 T) : Decidable (AxisAligned n) := by
  unfold AxisAligned
  infer_instance

/-- The root function `rsqrt` is exact at the squared length of `v` when `v` is not
the zero-length vector: `normalize` then returns a vector of squared length `1`. -/
def NormalizesOn (rsqrt : T → T) (v : Vec3 T) : Prop :=
  dot v v ≠ 0 → dot (normalize rsqrt v) (normalize rsqrt v) = 1

end Predicates

/-! ## Sample scalar functions over the rationals -/

/-- A reciprocal square root on a few rational squares. -/
def rsqrtQ (x : ℚ) : ℚ := if x = 16 / 25 then 5 / 4 else if x = 9 / 25 then 5 / 3 else 1

/-- A sine table: the angle `1` has sine `24/25`, its half has sine `3/5`. -/
def sinQ (x : ℚ) : ℚ := if x = 1 then 24 / 25 else if x = 1 / 2 then 3 / 5 else 0

/-- A cosine table: the angle `1` has cosine `7/25`, its half has cosine `4/5`. -/
def cosQ (x : ℚ) : ℚ := if x = 1 then 7 / 25 else if x = 1 / 2 then 4 / 5 else 1

/-! ## Properties -/

section Properties

variable {T : Type} [Field T]

/-- C1: for every transform `M` with `M.det() != 0`, both `M.inverse() * M` and
`M * M.inverse()` equal the identity transform. -/
theorem inverse_mul_and_mul_inverse (M : LinearSpace3 T) (h : M.det ≠ 0) :
    M.inverse.mul M = LinearSpace3.one ∧ M.mul M.inverse = LinearSpace3.one := by
  obtain ⟨⟨a, b, c⟩, ⟨d, e, f⟩, ⟨g, k, l⟩⟩ := M
  have h0 : a * (e * l - f * k) + b * (f * g - d * l) + c * (d * k - e * g) ≠ 0 := by
    simpa [LinearSpace3.det, dot, cross] using h
  constructor
  · simp only [LinearSpace3.inverse, LinearSpace3.mul, LinearSpace3.mulVec, LinearSpace3.smul,
      LinearSpace3.adjoint, LinearSpace3.transposed, LinearSpace3.ofRows, LinearSpace3.det,
      LinearSpace3.one, rcp, dot, cross, Vec3.smul, Vec3.add]
    refine LinearSpace3.ext (Vec3.ext ?_ ?_ ?_) (Vec3.ext ?_ ?_ ?_) (Vec3.ext ?_ ?_ ?_) <;>
      simp only [] <;> field_simp <;> ring
  · simp only [LinearSpace3.inverse, LinearSpace3.mul, LinearSpace3.mulVec, LinearSpace3.smul,
      LinearSpace3.adjoint, LinearSpace3.transposed, LinearSpace3.ofRows, LinearSpace3.det,
      LinearSpace3.one, rcp, dot, cross, Vec3.smul, Vec3.add]
    refine LinearSpace3.ext (Vec3.ext ?_ ?_ ?_) (Vec3.ext ?_ ?_ ?_) (Vec3.ext ?_ ?_ ?_) <;>
      simp only [] <;> field_simp <;> ring

/-- C1 at a concrete input: a rational transform of determinant `25`. -/
theorem inverse_mul_and_mul_inverse_witness :
    (⟨⟨2, 0, 1⟩, ⟨1, 3, 0⟩, ⟨0, 1, 4⟩⟩ : LinearSpace3 ℚ).det ≠ 0 ∧
    (⟨⟨2, 0, 1⟩, ⟨1, 3, 0⟩, ⟨0, 1, 4⟩⟩ : LinearSpace3 ℚ).inverse.mul
        ⟨⟨2, 0, 1⟩, ⟨1, 3, 0⟩, ⟨0, 1, 4⟩⟩ = LinearSpace3.one ∧
    (⟨⟨2, 0, 1⟩, ⟨1, 3, 0⟩, ⟨0, 1, 4⟩⟩ : LinearSpace3 ℚ).mul
        (⟨⟨2, 0, 1⟩, ⟨1, 3, 0⟩, ⟨0, 1, 4⟩⟩ : LinearSpace3 ℚ).inverse = LinearSpace3.one :=
  ⟨by norm_num [LinearSpace3.det, dot, cross],
   inverse_mul_and_mul_inverse ⟨⟨2, 0, 1⟩, ⟨1, 3, 0⟩, ⟨0, 1, 4⟩⟩
     (by norm_num [LinearSpace3.det, dot, cross])⟩

/-- C2: for all transforms `A` and `B`, `(A * B).det()` equals `A.det() * B.det()`. -/
theorem det_mul (A B : LinearSpace3 T) : (A.mul B).det = A.det * B.det := by
  simp only [LinearSpace3.mul, LinearSpace3.mulVec, LinearSpace3.det, dot, cross, Vec3.smul,
    Vec3.add]
  ring

/-- C3: for every transform `M`, singular or not, `M.adjoint() * M` and `M * M.adjoint()`
both equal `M.det()` times the identity transform. -/
theorem adjoint_mul_and_mul_adjoint (M : LinearSpace3 T) :
    M.adjoint.mul M = LinearSpace3.smul M.det LinearSpace3.one ∧
    M.mul M.adjoint = LinearSpace3.smul M.det LinearSpace3.one := by
  constructor <;>
  · simp only [LinearSpace3.mul, LinearSpace3.mulVec, LinearSpace3.smul,
      LinearSpace3.adjoint, LinearSpace3.transposed, LinearSpace3.ofRows, LinearSpace3.det,
      LinearSpace3.one, dot, cross, Vec3.smul, Vec3.add]
    refine LinearSpace3.ext (Vec3.ext ?_ ?_ ?_) (Vec3.ext ?_ ?_ ?_) (Vec3.ext ?_ ?_ ?_) <;>
      simp only [] <;> ring

/-- Normalising a vector of squared length `1` returns it unchanged when `rsqrt 1 = 1`. -/
theorem normalize_unit (rsqrt : T → T) (u : Vec3 T) (hu : dot u u = 1) (h1 : rsqrt 1 = 1) :
    normalize rsqrt u = u := by
  simp only [normalize, hu, h1, Vec3.muls, mul_one]

/-- C4: for every unit-length axis `u` and every angle `r` with
`sin r * sin r + cos r * cos r = 1`, `rotate(u, r)` is a proper rotation: its columns have
unit length and are mutually orthogonal, and its determinant is `1`. -/
theorem rotate_proper_rotation (rsqrt sin cos : T → T) (u : Vec3 T) (r : T)
    (hu : dot u u = 1) (h1 : rsqrt 1 = 1) (hs : sin r * sin r + cos r * cos r = 1) :
    (LinearSpace3.rotate rsqrt sin cos u r).Orthonormal ∧
    (LinearSpace3.rotate rsqrt sin cos u r).det = 1 := by
  have hn := normalize_unit rsqrt u hu h1
  obtain ⟨ux, uy, uz⟩ := u
  simp only [dot] at hu
  simp only [LinearSpace3.rotate, hn, LinearSpace3.Orthonormal, LinearSpace3.ofRows,
    LinearSpace3.det, dot, cross]
  generalize sin r = s at hs ⊢
  generalize cos r = c at hs ⊢
  refine ⟨⟨?_, ?_, ?_, ?_, ?_, ?_⟩, ?_⟩
  · linear_combination (s^2 + ux^2 - 2*ux^2*c + ux^2*c^2) * hu + (1 - ux^2) * hs
  · linear_combination (s^2 + uy^2 - 2*uy^2*c + uy^2*c^2) * hu + (1 - uy^2) * hs
  · linear_combination (1 - c^2 + uz^2 - 2*uz^2*c + uz^2*c^2) * hu + (uy^2 + ux^2) * hs
  · linear_combination (ux*uy - 2*ux*uy*c + ux*uy*c^2) * hu + (-(ux*uy)) * hs
  · linear_combination (ux*uz - 2*ux*uz*c + ux*uz*c^2) * hu + (-(ux*uz)) * hs
  · linear_combination (uy*uz - 2*uy*uz*c + uy*uz*c^2) * hu + (-(uy*uz)) * hs
  · linear_combination (c^2 - c^3 + s^2 + uz^2*s^2 - uz^2*s^2*c + uy^2*s^2 - uy^2*s^2*c
      + ux^2*s^2 - ux^2*s^2*c) * hu + hs

/-- C4 at a concrete input: axis `(2/3, 1/3, 2/3)`, angle `1` with sine `24/25` and
cosine `7/25`. -/
theorem rotate_proper_rotation_witness :
    (LinearSpace3.rotate rsqrtQ sinQ cosQ (⟨2/3, 1/3, 2/3⟩ : Vec3 ℚ) 1).Orthonormal ∧
    (LinearSpace3.rotate rsqrtQ sinQ cosQ (⟨2/3, 1/3, 2/3⟩ : Vec3 ℚ) 1).det = 1 :=
  rotate_proper_rotation rsqrtQ sinQ cosQ ⟨2/3, 1/3, 2/3⟩ 1
    (by norm_num [dot]) (by norm_num [rsqrtQ]) (by norm_num [sinQ, cosQ])

/-- C5: for every unit axis `A` and angle `θ`, the transform built by the quaternion
constructor from `q = (cos(θ/2), sin(θ/2) * A)` equals `rotate(A, θ)`, given the
double-angle identities of `sin` and `cos` at `θ`. -/
theorem ofQuaternion_eq_rotate (rsqrt sin cos : T → T) (A : Vec3 T) (θ : T)
    (hA : dot A A = 1) (h1 : rsqrt 1 = 1)
    (hh : sin (θ / 2) * sin (θ / 2) + cos (θ / 2) * cos (θ / 2) = 1)
    (hsin : sin θ = 2 * sin (θ / 2) * cos (θ / 2))
    (hcos : cos θ = cos (θ / 2) * cos (θ / 2) - sin (θ / 2) * sin (θ / 2)) :
    LinearSpace3.ofQuaternion
        ⟨cos (θ / 2), sin (θ / 2) * A.x, sin (θ / 2) * A.y, sin (θ / 2) * A.z⟩ =
      LinearSpace3.rotate rsqrt sin cos A θ := by
  have hn := normalize_unit rsqrt A hA h1
  obtain ⟨ax, ay, az⟩ := A
  simp only [dot] at hA
  simp only [LinearSpace3.rotate, hn, LinearSpace3.ofQuaternion, LinearSpace3.ofRows, hsin,
    hcos]
  generalize sin (θ / 2) = sh at hh ⊢
  generalize cos (θ / 2) = ch at hh ⊢
  refine LinearSpace3.ext (Vec3.ext ?_ ?_ ?_) (Vec3.ext ?_ ?_ ?_) (Vec3.ext ?_ ?_ ?_) <;>
    simp only []
  · linear_combination (-sh^2) * hA + ax^2 * hh
  · linear_combination (ax*ay) * hh
  · linear_combination (ax*az) * hh
  · linear_combination (ax*ay) * hh
  · linear_combination (-sh^2) * hA + ay^2 * hh
  · linear_combination (ay*az) * hh
  · linear_combination (ax*az) * hh
  · linear_combination (ay*az) * hh
  · linear_combination (-sh^2) * hA + az^2 * hh

/-- C5 at a concrete input: axis `(2/3, 1/3, 2/3)`, angle `1` whose half has sine `3/5`
and cosine `4/5`. -/
theorem ofQuaternion_eq_rotate_witness :
    LinearSpace3.ofQuaternion
        (⟨cosQ (1 / 2), sinQ (1 / 2) * (2/3), sinQ (1 / 2) * (1/3), sinQ (1 / 2) * (2/3)⟩ :
          QuaternionT ℚ) =
      LinearSpace3.rotate rsqrtQ sinQ cosQ ⟨2/3, 1/3, 2/3⟩ 1 :=
  ofQuaternion_eq_rotate rsqrtQ sinQ cosQ ⟨2/3, 1/3, 2/3⟩ 1
    (by norm_num [dot]) (by norm_num [rsqrtQ]) (by norm_num [sinQ, cosQ])
    (by norm_num [sinQ, cosQ]) (by norm_num [sinQ, cosQ])

/-- C6: for every unit quaternion `q` (`r*r + i*i + j*j + k*k = 1`), the transform
`LinearSpace3(q)` is a proper rotation: its columns are unit-length and mutually
orthogonal and its determinant is `1`. -/
theorem ofQuaternion_proper_rotation (q : QuaternionT T)
    (hq : q.r * q.r + q.i * q.i + q.j * q.j + q.k * q.k = 1) :
    (LinearSpace3.ofQuaternion q).Orthonormal ∧ (LinearSpace3.ofQuaternion q).det = 1 := by
  obtain ⟨r, i, j, k⟩ := q
  simp only at hq
  simp only [LinearSpace3.ofQuaternion, LinearSpace3.Orthonormal, LinearSpace3.det, dot, cross]
  refine ⟨⟨?_, ?_, ?_, ?_, ?_, ?_⟩, ?_⟩
  · linear_combination (r*r + i*i + j*j + k*k + 1) * hq
  · linear_combination (r*r + i*i + j*j + k*k + 1) * hq
  · linear_combination (r*r + i*i + j*j + k*k + 1) * hq
  · ring
  · ring
  · ring
  · linear_combination ((r*r + i*i + j*j + k*k)^2 + (r*r + i*i + j*j + k*k) + 1) * hq

/-- C6 at a concrete input: the unit quaternion `(1/2, 1/2, 1/2, 1/2)`. -/
theorem ofQuaternion_proper_rotation_witness :
    (LinearSpace3.ofQuaternion (⟨1/2, 1/2, 1/2, 1/2⟩ : QuaternionT ℚ)).Orthonormal ∧
    (LinearSpace3.ofQuaternion (⟨1/2, 1/2, 1/2, 1/2⟩ : QuaternionT ℚ)).det = 1 :=
  ofQuaternion_proper_rotation ⟨1/2, 1/2, 1/2, 1/2⟩ (by norm_num)

/-- The inverse-transposed of a scale transform with non-zero factors is the scale
transform of the reciprocal factors: `xfmNormal` divides each component. -/
theorem xfmNormal_scale (s n : Vec3 T) (hx : s.x ≠ 0) (hy : s.y ≠ 0) (hz : s.z ≠ 0) :
    xfmNormal (LinearSpace3.scale s) n = ⟨n.x / s.x, n.y / s.y, n.z / s.z⟩ := by
  obtain ⟨sx, sy, sz⟩ := s
  obtain ⟨nx, ny, nz⟩ := n
  simp only at hx hy hz
  simp only [xfmNormal, xfmVector, LinearSpace3.scale, LinearSpace3.inverse, LinearSpace3.smul,
    LinearSpace3.adjoint, LinearSpace3.transposed, LinearSpace3.ofRows, LinearSpace3.det, rcp,
    dot, cross, Vec3.smul, Vec3.add]
  refine Vec3.ext ?_ ?_ ?_ <;> simp only [] <;> field_simp <;> ring

/-- The plain vector rule on a scale transform multiplies each component. -/
theorem xfmVector_scale (s n : Vec3 T) :
    xfmVector (LinearSpace3.scale s) n = ⟨s.x * n.x, s.y * n.y, s.z * n.z⟩ := by
  simp only [xfmVector, LinearSpace3.scale, LinearSpace3.ofRows, Vec3.smul, Vec3.add]
  refine Vec3.ext ?_ ?_ ?_ <;> simp only [] <;> ring

/-- One component of the comparison: `a / b = b * a` exactly when `a = 0` or `b * b = 1`. -/
theorem div_eq_mul_iff_component (a b : T) (hb : b ≠ 0) :
    a / b = b * a ↔ ¬ (a ≠ 0 ∧ b * b ≠ 1) := by
  rw [div_eq_iff hb, not_and_or, not_not, not_not]
  constructor
  · intro h
    have h2 : a * (b * b - 1) = 0 := by linear_combination -h
    rcases mul_eq_zero.mp h2 with h3 | h3
    · exact Or.inl h3
    · exact Or.inr (by linear_combination h3)
  · rintro (h | h)
    · rw [h]; ring
    · linear_combination (-a) * h

/-- C7, counterexample: the scale transform `scale((1, 2, 1))` has non-zero factors with
`sx != sy`, the normal `(1, 0, 1)` is not aligned with a coordinate axis, and yet
`xfmNormal` and `xfmVector` agree on it; the same happens for `scale((1, -1, 1))` and
the normal `(1, 1, 1)`, none of whose components is zero. -/
theorem xfmNormal_scale_counterexample :
    ((1 : ℚ) ≠ 0 ∧ (2 : ℚ) ≠ 0 ∧ (1 : ℚ) ≠ 2 ∧ ¬ AxisAligned (⟨1, 0, 1⟩ : Vec3 ℚ) ∧
      xfmNormal (LinearSpace3.scale (⟨1, 2, 1⟩ : Vec3 ℚ)) ⟨1, 0, 1⟩ =
        xfmVector (LinearSpace3.scale (⟨1, 2, 1⟩ : Vec3 ℚ)) ⟨1, 0, 1⟩) ∧
    ((1 : ℚ) ≠ 0 ∧ (-1 : ℚ) ≠ 0 ∧ (1 : ℚ) ≠ -1 ∧ ¬ AxisAligned (⟨1, 1, 1⟩ : Vec3 ℚ) ∧
      xfmNormal (LinearSpace3.scale (⟨1, -1, 1⟩ : Vec3 ℚ)) ⟨1, 1, 1⟩ =
        xfmVector (LinearSpace3.scale (⟨1, -1, 1⟩ : Vec3 ℚ)) ⟨1, 1, 1⟩) := by
  refine ⟨⟨by norm_num, by norm_num, by norm_num, by norm_num [AxisAligned], ?_⟩,
    ⟨by norm_num, by norm_num, by norm_num, by norm_num [AxisAligned], ?_⟩⟩
  · rw [xfmNormal_scale _ _ (by norm_num) (by norm_num) (by norm_num), xfmVector_scale]
    norm_num
  · rw [xfmNormal_scale _ _ (by norm_num) (by norm_num) (by norm_num), xfmVector_scale]
    norm_num

/-- C7, amended: for every scale transform `S = scale((sx, sy, sz))` with non-zero
factors and every normal `n`, `xfmNormal(S, n)` is `(n.x / sx, n.y / sy, n.z / sz)`; it
differs from `xfmVector(S, n)` exactly when some component of `n` is non-zero while the
square of its factor is not `1`; in particular it differs whenever `sx*sx != sy*sy` and
`n.x`, `n.y` are both non-zero. -/
theorem xfmNormal_scale_ne_iff (s n : Vec3 T) (hx : s.x ≠ 0) (hy : s.y ≠ 0) (hz : s.z ≠ 0) :
    xfmNormal (LinearSpace3.scale s) n = ⟨n.x / s.x, n.y / s.y, n.z / s.z⟩ ∧
    (xfmNormal (LinearSpace3.scale s) n ≠ xfmVector (LinearSpace3.scale s) n ↔
      (n.x ≠ 0 ∧ s.x * s.x ≠ 1) ∨ (n.y ≠ 0 ∧ s.y * s.y ≠ 1) ∨ (n.z ≠ 0 ∧ s.z * s.z ≠ 1)) ∧
    (s.x * s.x ≠ s.y * s.y → n.x ≠ 0 → n.y ≠ 0 →
      xfmNormal (LinearSpace3.scale s) n ≠ xfmVector (LinearSpace3.scale s) n) := by
  have key : xfmNormal (LinearSpace3.scale s) n ≠ xfmVector (LinearSpace3.scale s) n ↔
      (n.x ≠ 0 ∧ s.x * s.x ≠ 1) ∨ (n.y ≠ 0 ∧ s.y * s.y ≠ 1) ∨ (n.z ≠ 0 ∧ s.z * s.z ≠ 1) := by
    rw [xfmNormal_scale s n hx hy hz, xfmVector_scale, Ne, Vec3.mk.injEq,
      div_eq_mul_iff_component _ _ hx, div_eq_mul_iff_component _ _ hy,
      div_eq_mul_iff_component _ _ hz]
    tauto
  refine ⟨xfmNormal_scale s n hx hy hz, key, ?_⟩
  intro hne hnx hny
  rw [key]
  by_cases h1 : s.x * s.x = 1
  · refine Or.inr (Or.inl ⟨hny, ?_⟩)
    intro h2
    exact hne (h1.trans h2.symm)
  · exact Or.inl ⟨hnx, h1⟩

/-- C7 amended, at a concrete input: `scale((2, 3, 1))` and the normal `(1, 1, 0)`. -/
theorem xfmNormal_scale_ne_iff_witness :
    xfmNormal (LinearSpace3.scale (⟨2, 3, 1⟩ : Vec3 ℚ)) ⟨1, 1, 0⟩ = ⟨1 / 2, 1 / 3, 0 / 1⟩ ∧
    xfmNormal (LinearSpace3.scale (⟨2, 3, 1⟩ : Vec3 ℚ)) ⟨1, 1, 0⟩ ≠
      xfmVector (LinearSpace3.scale (⟨2, 3, 1⟩ : Vec3 ℚ)) ⟨1, 1, 0⟩ :=
  ⟨(xfmNormal_scale_ne_iff (⟨2, 3, 1⟩ : Vec3 ℚ) ⟨1, 1, 0⟩
      (by norm_num) (by norm_num) (by norm_num)).1,
   (xfmNormal_scale_ne_iff (⟨2, 3, 1⟩ : Vec3 ℚ) ⟨1, 1, 0⟩
      (by norm_num) (by norm_num) (by norm_num)).2.2
      (by norm_num) (by norm_num) (by norm_num)⟩

/-- C8: for every vector `v`, the identity transform applied with `xfmPoint`, with
`xfmVector` and with `xfmNormal` returns `v` unchanged. -/
theorem identity_xfm (v : Vec3 T) :
    xfmPoint LinearSpace3.one v = v ∧ xfmVector LinearSpace3.one v = v ∧
    xfmNormal LinearSpace3.one v = v := by
  refine ⟨?_, ?_, ?_⟩ <;>
    simp [xfmPoint, xfmVector, xfmNormal, LinearSpace3.one, LinearSpace3.inverse,
      LinearSpace3.smul, LinearSpace3.adjoint, LinearSpace3.transposed, LinearSpace3.ofRows,
      LinearSpace3.det, rcp, dot, cross, Vec3.smul, Vec3.add]

/-- C9: for every unit axis `u`, `rotate(u, 0)`, with `sin 0 = 0` and `cos 0 = 1`, equals
the identity transform. -/
theorem rotate_zero_angle (rsqrt sin cos : T → T) (u : Vec3 T) (_hu : dot u u = 1)
    (hs : sin 0 = 0) (hc : cos 0 = 1) :
    LinearSpace3.rotate rsqrt sin cos u 0 = LinearSpace3.one := by
  simp only [LinearSpace3.rotate, LinearSpace3.ofRows, LinearSpace3.one, hs, hc]
  refine LinearSpace3.ext (Vec3.ext ?_ ?_ ?_) (Vec3.ext ?_ ?_ ?_) (Vec3.ext ?_ ?_ ?_) <;>
    simp only [] <;> ring

/-- C9 at a concrete input: the unit axis `(2/3, 1/3, 2/3)`. -/
theorem rotate_zero_angle_witness :
    LinearSpace3.rotate rsqrtQ sinQ cosQ (⟨2/3, 1/3, 2/3⟩ : Vec3 ℚ) 0 = LinearSpace3.one :=
  rotate_zero_angle rsqrtQ sinQ cosQ ⟨2/3, 1/3, 2/3⟩
    (by norm_num [dot]) (by norm_num [sinQ]) (by norm_num [cosQ])

end Properties

section FrameProperties

variable {T : Type} [LinearOrderedField T]

/-- A vector is orthogonal to its cross product with any other vector. -/
theorem dot_cross_right (a b : Vec3 T) : dot (cross a b) b = 0 := by
  simp only [dot, cross]
  ring

/-- A vector is orthogonal to the cross product it is the left factor of. -/
theorem dot_cross_left (a b : Vec3 T) : dot (cross a b) a = 0 := by
  simp only [dot, cross]
  ring

/-- Lagrange identity: the squared length of a cross product. -/
theorem dot_cross_cross (a b : Vec3 T) :
    dot (cross a b) (cross a b) = dot a a * dot b b - dot a b * dot a b := by
  simp only [dot, cross]
  ring

/-- The dot product is symmetric. -/
theorem dot_comm (a b : Vec3 T) : dot a b = dot b a := by
  simp only [dot]
  ring

/-- Scaling the left argument scales the dot product. -/
theorem dot_muls_left (a b : Vec3 T) (k : T) : dot (a.muls k) b = k * dot a b := by
  simp only [dot, Vec3.muls]
  ring

/-- The squared length of a vector is not negative. -/
theorem dot_self_nonneg (a : Vec3 T) : 0 ≤ dot a a := by
  simp only [dot]
  nlinarith [mul_self_nonneg a.x, mul_self_nonneg a.y, mul_self_nonneg a.z]

/-- The two candidate cross products of `frame` have squared lengths adding up to at
least the squared length of the normal. -/
theorem frame_candidates_sum (N : Vec3 T) :
    dot N N ≤ dot (cross ⟨1, 0, 0⟩ N) (cross ⟨1, 0, 0⟩ N) +
      dot (cross ⟨0, 1, 0⟩ N) (cross ⟨0, 1, 0⟩ N) := by
  simp only [dot, cross]
  nlinarith [mul_self_nonneg N.x, mul_self_nonneg N.y, mul_self_nonneg N.z]

/-- C10: for every unit-length normal `N`, `frame(N)` returns a transform whose third
column is exactly `N` and whose three columns form an orthonormal basis, provided
`normalize` is exact on the two non-zero candidate cross products and `rsqrt 1 = 1`. -/
theorem frame_orthonormal (rsqrt : T → T) (N : Vec3 T) (hN : dot N N = 1)
    (h0 : NormalizesOn rsqrt (cross ⟨1, 0, 0⟩ N))
    (h1 : NormalizesOn rsqrt (cross ⟨0, 1, 0⟩ N))
    (hr : rsqrt 1 = 1) :
    (frame rsqrt N).vz = N ∧ (frame rsqrt N).Orthonormal := by
  have hsum := frame_candidates_sum N
  rw [hN] at hsum
  have hn0 := dot_self_nonneg (cross ⟨1, 0, 0⟩ N)
  have hn1 := dot_self_nonneg (cross ⟨0, 1, 0⟩ N)
  -- the candidate that `select` returns
  obtain ⟨d, hd, hdN, hdd, hdu⟩ : ∃ d : Vec3 T,
      select (decide (dot (cross ⟨1, 0, 0⟩ N) (cross ⟨1, 0, 0⟩ N) >
        dot (cross ⟨0, 1, 0⟩ N) (cross ⟨0, 1, 0⟩ N))) (cross ⟨1, 0, 0⟩ N)
        (cross ⟨0, 1, 0⟩ N) = d ∧ dot d N = 0 ∧ dot d d ≠ 0 ∧
      dot (normalize rsqrt d) (normalize rsqrt d) = 1 := by
    by_cases h : dot (cross ⟨1, 0, 0⟩ N) (cross ⟨1, 0, 0⟩ N) >
        dot (cross ⟨0, 1, 0⟩ N) (cross ⟨0, 1, 0⟩ N)
    · have hne : dot (cross ⟨1, 0, 0⟩ N) (cross ⟨1, 0, 0⟩ N) ≠ 0 := by
        apply ne_of_gt
        exact lt_of_le_of_lt hn1 h
      exact ⟨_, by simp [select, h], dot_cross_right _ _, hne, h0 hne⟩
    · have hne : dot (cross ⟨0, 1, 0⟩ N) (cross ⟨0, 1, 0⟩ N) ≠ 0 := by
        apply ne_of_gt
        have h2 := not_lt.mp h
        linarith
      exact ⟨_, by simp [select, h], dot_cross_right _ _, hne, h1 hne⟩
  -- the first column is orthogonal to the normal
  have hxN : dot (normalize rsqrt d) N = 0 := by
    rw [normalize, dot_muls_left, hdN, mul_zero]
  -- the cross product of the normal with the first column already has unit length
  have hee : dot (cross N (normalize rsqrt d)) (cross N (normalize rsqrt d)) = 1 := by
    rw [dot_cross_cross, hN, hdu, dot_comm N, hxN]
    ring
  have hy : normalize rsqrt (cross N (normalize rsqrt d)) = cross N (normalize rsqrt d) := by
    simp only [normalize, hee, hr, Vec3.muls, mul_one] at *
  simp only [frame, hd, hy, LinearSpace3.Orthonormal]
  refine ⟨trivial, hdu, hee, hN, ?_, hxN, dot_cross_left _ _⟩
  rw [dot_comm]
  exact dot_cross_right _ _

/-- C10 at a concrete input: the unit normal `(3/5, 4/5, 0)`. -/
theorem frame_orthonormal_witness :
    (frame rsqrtQ (⟨3/5, 4/5, 0⟩ : Vec3 ℚ)).vz = ⟨3/5, 4/5, 0⟩ ∧
    (frame rsqrtQ (⟨3/5, 4/5, 0⟩ : Vec3 ℚ)).Orthonormal :=
  frame_orthonormal rsqrtQ ⟨3/5, 4/5, 0⟩ (by norm_num [dot])
    (by norm_num [NormalizesOn, normalize, rsqrtQ, dot, cross, Vec3.muls])
    (by norm_num [NormalizesOn, normalize, rsqrtQ, dot, cross, Vec3.muls])
    (by norm_num [rsqrtQ])

end FrameProperties

/-! ## Further properties of the linear transform -/

section OutputProperties

/-- C16, counterexample: for the identity transform over the natural numbers, with vectors
rendered as `(x, y, z)`, the text written by `operator<<` is not the string of the claim,
which has a space before the closing brace; the written text ends in `1)` followed directly
by the closing brace. -/
theorem output_counterexample :
    LinearSpace3.output textN ⟨⟨1, 0, 0⟩, ⟨0, 1, 0⟩, ⟨0, 0, 1⟩⟩ ≠
        "\x7b vx = " ++ textN ⟨1, 0, 0⟩ ++ ", vy = " ++ textN ⟨0, 1, 0⟩ ++ ", vz = " ++
          textN ⟨0, 0, 1⟩ ++ " \x7d" ∧
    LinearSpace3.output textN ⟨⟨1, 0, 0⟩, ⟨0, 1, 0⟩, ⟨0, 0, 1⟩⟩ =
        "\x7b vx = (1, 0, 0), vy = (0, 1, 0), vz = (0, 0, 1)\x7d" := by
  constructor <;> decide

/-- C16, amended: for every transform `m`, the debug text written by `operator<<` is exactly
the opening brace and ` vx = `, the text of `m.vx`, `, vy = `, the text of `m.vy`,
`, vz = `, the text of `m.vz` and the closing brace, with no space before the closing
brace; it is never the string with a space there. -/
theorem output_eq {T : Type} (text : Vec3 T → String) (m : LinearSpace3 T) :
    LinearSpace3.output text m =
        "\x7b vx = " ++ text m.vx ++ ", vy = " ++ text m.vy ++ ", vz = " ++ text m.vz ++
          "\x7d" ∧
    LinearSpace3.output text m ≠
        "\x7b vx = " ++ text m.vx ++ ", vy = " ++ text m.vy ++ ", vz = " ++ text m.vz ++
          " \x7d" := by
  refine ⟨rfl, ?_⟩
  intro h
  have h2 := congrArg String.data h
  simp only [LinearSpace3.output, String.data_append, List.append_assoc,
    List.append_cancel_left_eq] at h2
  exact absurd h2 (by decide)

end OutputProperties

section CompositionProperties

variable {T : Type} [Field T]

/-- C17: transform-transform multiplication is composition of the linear maps:
`(A * B) * v = A * (B * v)`, and `xfmPoint(A * B, v) = xfmVector(A * B, v) =
xfmVector(A, xfmVector(B, v))`. -/
theorem mul_is_composition (A B : LinearSpace3 T) (v : Vec3 T) :
    (A.mul B).mulVec v = A.mulVec (B.mulVec v) ∧
    xfmPoint (A.mul B) v = xfmVector (A.mul B) v ∧
    xfmVector (A.mul B) v = xfmVector A (xfmVector B v) := by
  refine ⟨?_, rfl, ?_⟩ <;>
  · simp only [LinearSpace3.mul, LinearSpace3.mulVec, xfmVector, Vec3.smul, Vec3.add]
    refine Vec3.ext ?_ ?_ ?_ <;> simp only [] <;> ring

/-- C19: normals transform contravariantly: for every transform `M` with `M.det() != 0`
and all vectors `n` and `v`, `dot(xfmNormal(M, n), xfmVector(M, v)) = dot(n, v)`; in
particular a normal perpendicular to a tangent stays perpendicular to the transformed
tangent. -/
theorem xfmNormal_contravariant (M : LinearSpace3 T) (n v : Vec3 T) (h : M.det ≠ 0) :
    dot (xfmNormal M n) (xfmVector M v) = dot n v ∧
    (dot n v = 0 → dot (xfmNormal M n) (xfmVector M v) = 0) := by
  have key : dot (xfmNormal M n) (xfmVector M v) = dot n v := by
    obtain ⟨⟨a, b, c⟩, ⟨d, e, f⟩, ⟨g, k, l⟩⟩ := M
    obtain ⟨n1, n2, n3⟩ := n
    obtain ⟨v1, v2, v3⟩ := v
    have h0 : a * (e * l - f * k) + b * (f * g - d * l) + c * (d * k - e * g) ≠ 0 := by
      simpa [LinearSpace3.det, dot, cross] using h
    simp only [xfmNormal, xfmVector, LinearSpace3.inverse, LinearSpace3.smul,
      LinearSpace3.adjoint, LinearSpace3.transposed, LinearSpace3.ofRows, LinearSpace3.det,
      rcp, dot, cross, Vec3.smul, Vec3.add]
    field_simp
    ring
  exact ⟨key, fun h2 => key.trans h2⟩

/-- C19 at a concrete input: a rational transform of determinant `25`, the normal
`(1, 2, 3)` and the vector `(3, 0, -1)`, which are perpendicular. -/
theorem xfmNormal_contravariant_witness :
    dot (xfmNormal (⟨⟨2, 0, 1⟩, ⟨1, 3, 0⟩, ⟨0, 1, 4⟩⟩ : LinearSpace3 ℚ) ⟨1, 2, 3⟩)
        (xfmVector (⟨⟨2, 0, 1⟩, ⟨1, 3, 0⟩, ⟨0, 1, 4⟩⟩ : LinearSpace3 ℚ) ⟨3, 0, -1⟩) = 0 :=
  (xfmNormal_contravariant (⟨⟨2, 0, 1⟩, ⟨1, 3, 0⟩, ⟨0, 1, 4⟩⟩ : LinearSpace3 ℚ) ⟨1, 2, 3⟩
    ⟨3, 0, -1⟩ (by norm_num [LinearSpace3.det, dot, cross])).2 (by norm_num [dot])

end CompositionProperties

section FrameCandidate

variable {T : Type} [LinearOrderedField T]

/-- C18: for every unit-length normal `N`, the candidate cross product that `frame(N)`
selects and normalises has squared length at least `1/2`, so it is not the zero vector
and the argument of the reciprocal square root is not zero. -/
theorem frame_selected_candidate (rsqrt : T → T) (N : Vec3 T) (hN : dot N N = 1) :
    (frame rsqrt N).vx =
      normalize rsqrt (select (decide (dot (cross ⟨1, 0, 0⟩ N) (cross ⟨1, 0, 0⟩ N) >
        dot (cross ⟨0, 1, 0⟩ N) (cross ⟨0, 1, 0⟩ N))) (cross ⟨1, 0, 0⟩ N)
        (cross ⟨0, 1, 0⟩ N)) ∧
    1 / 2 ≤ dot (select (decide (dot (cross ⟨1, 0, 0⟩ N) (cross ⟨1, 0, 0⟩ N) >
        dot (cross ⟨0, 1, 0⟩ N) (cross ⟨0, 1, 0⟩ N))) (cross ⟨1, 0, 0⟩ N)
        (cross ⟨0, 1, 0⟩ N))
      (select (decide (dot (cross ⟨1, 0, 0⟩ N) (cross ⟨1, 0, 0⟩ N) >
        dot (cross ⟨0, 1, 0⟩ N) (cross ⟨0, 1, 0⟩ N))) (cross ⟨1, 0, 0⟩ N)
        (cross ⟨0, 1, 0⟩ N)) ∧
    select (decide (dot (cross ⟨1, 0, 0⟩ N) (cross ⟨1, 0, 0⟩ N) >
        dot (cross ⟨0, 1, 0⟩ N) (cross ⟨0, 1, 0⟩ N))) (cross ⟨1, 0, 0⟩ N)
        (cross ⟨0, 1, 0⟩ N) ≠ ⟨0, 0, 0⟩ := by
  have hsum := frame_candidates_sum N
  rw [hN] at hsum
  have hhalf : 1 / 2 ≤ dot (select (decide (dot (cross ⟨1, 0, 0⟩ N) (cross ⟨1, 0, 0⟩ N) >
        dot (cross ⟨0, 1, 0⟩ N) (cross ⟨0, 1, 0⟩ N))) (cross ⟨1, 0, 0⟩ N)
        (cross ⟨0, 1, 0⟩ N))
      (select (decide (dot (cross ⟨1, 0, 0⟩ N) (cross ⟨1, 0, 0⟩ N) >
        dot (cross ⟨0, 1, 0⟩ N) (cross ⟨0, 1, 0⟩ N))) (cross ⟨1, 0, 0⟩ N)
        (cross ⟨0, 1, 0⟩ N)) := by
    by_cases h : dot (cross ⟨1, 0, 0⟩ N) (cross ⟨1, 0, 0⟩ N) >
        dot (cross ⟨0, 1, 0⟩ N) (cross ⟨0, 1, 0⟩ N)
    · simp only [select, h, decide_True, if_true]
      linarith
    · simp only [select, h, decide_False, Bool.false_eq_true, if_false]
      have h2 := not_lt.mp h
      linarith
  refine ⟨rfl, hhalf, ?_⟩
  intro h0
  rw [h0] at hhalf
  norm_num [dot] at hhalf

/-- C18 at a concrete input: the unit normal `(3/5, 4/5, 0)`, whose selected candidate
`(0, 0, 4/5)` has squared length `16/25`. -/
theorem frame_selected_candidate_witness :
    (1 : ℚ) / 2 ≤ dot (select (decide (dot (cross ⟨1, 0, 0⟩ (⟨3/5, 4/5, 0⟩ : Vec3 ℚ))
        (cross ⟨1, 0, 0⟩ ⟨3/5, 4/5, 0⟩) >
        dot (cross ⟨0, 1, 0⟩ (⟨3/5, 4/5, 0⟩ : Vec3 ℚ)) (cross ⟨0, 1, 0⟩ ⟨3/5, 4/5, 0⟩)))
        (cross ⟨1, 0, 0⟩ ⟨3/5, 4/5, 0⟩) (cross ⟨0, 1, 0⟩ ⟨3/5, 4/5, 0⟩))
      (select (decide (dot (cross ⟨1, 0, 0⟩ (⟨3/5, 4/5, 0⟩ : Vec3 ℚ))
        (cross ⟨1, 0, 0⟩ ⟨3/5, 4/5, 0⟩) >
        dot (cross ⟨0, 1, 0⟩ (⟨3/5, 4/5, 0⟩ : Vec3 ℚ)) (cross ⟨0, 1, 0⟩ ⟨3/5, 4/5, 0⟩)))
        (cross ⟨1, 0, 0⟩ ⟨3/5, 4/5, 0⟩) (cross ⟨0, 1, 0⟩ ⟨3/5, 4/5, 0⟩)) :=
  (frame_selected_candidate rsqrtQ (⟨3/5, 4/5, 0⟩ : Vec3 ℚ) (by norm_num [dot])).2.1

end FrameCandidate

/-! ## Properties of the diffuse scattering models -/

section ScatteringProperties

variable {K : Type} [LinearOrderedField K]

/-- The clamped value is never negative. -/
theorem clamp_nonneg (x : K) : 0 ≤ clamp x := le_max_left _ _

/-- The clamped value is at most `1`. -/
theorem clamp_le_one (x : K) : clamp x ≤ 1 :=
  max_le zero_le_one (min_le_right _ _)

/-- Clamping a value that is not positive gives `0`. -/
theorem clamp_of_nonpos (x : K) (h : x ≤ 0) : clamp x = 0 :=
  max_eq_left ((min_le_left _ _).trans h)

/-- Clamping a value of `[0,1]` returns it. -/
theorem clamp_of_mem (x : K) (h0 : 0 ≤ x) (h1 : x ≤ 1) : clamp x = x := by
  rw [clamp, min_eq_left h1, max_eq_right h0]

/-- Below `1` the clamp is the maximum with `0`. -/
theorem clamp_eq_max (x : K) (h1 : x ≤ 1) : clamp x = max 0 x := by
  rw [clamp, min_eq_left h1]

/-- The clamped value is positive exactly when the value is. -/
theorem clamp_pos_iff (x : K) : 0 < clamp x ↔ 0 < x := by
  constructor
  · intro h
    by_contra hx
    rw [clamp_of_nonpos x (not_lt.mp hx)] at h
    exact lt_irrefl _ h
  · intro h
    exact lt_max_of_lt_right (lt_min h zero_lt_one)

/-- The clamped value is non-zero exactly when the value is positive. -/
theorem clamp_ne_zero_iff (x : K) : clamp x ≠ 0 ↔ 0 < x := by
  rw [← clamp_pos_iff]
  constructor
  · intro h
    exact lt_of_le_of_ne (clamp_nonneg x) (Ne.symm h)
  · intro h
    exact ne_of_gt h

/-- The dot product with a negated vector is the negated dot product. -/
theorem dot_neg_right (a b : Vec3 K) : dot a b.neg = -dot a b := by
  simp only [dot, Vec3.neg]
  ring

/-- A color scaled twice is the zero color exactly when one factor vanishes. -/
theorem muls_muls_eq_zero_iff (c : Col3 K) (p q : K) (hp : p ≠ 0) :
    (c.muls p).muls q = Col3.zero ↔ c = Col3.zero ∨ q = 0 := by
  simp only [Col3.muls, Col3.zero, Col3.mk.injEq, Col3.ext_iff, mul_eq_zero, hp, or_false]
  tauto

/-- C11: for `Lambertian` with every reflectivity component in `[0,1]`: each component of
`eval(wo, dg, wi)` lies in `[0, 1/pi]` for every `wi` with `dot(wi, dg.Ns) > 0`, `eval` is
exactly the zero color for every `wi` with `dot(wi, dg.Ns) <= 0`, and the result does not
depend on `wo`. -/
theorem lambertian_eval_bounds (pi : K) (hpi : 0 < pi) (b : Lambertian K) (wo wo2 : Vec3 K)
    (dg : DifferentialGeometry K) (wi : Vec3 K)
    (hr : 0 ≤ b.R.r ∧ b.R.r ≤ 1) (hg : 0 ≤ b.R.g ∧ b.R.g ≤ 1) (hb : 0 ≤ b.R.b ∧ b.R.b ≤ 1) :
    (0 < dot wi dg.Ns →
      (0 ≤ (b.eval pi wo dg wi).r ∧ (b.eval pi wo dg wi).r ≤ 1 / pi) ∧
      (0 ≤ (b.eval pi wo dg wi).g ∧ (b.eval pi wo dg wi).g ≤ 1 / pi) ∧
      (0 ≤ (b.eval pi wo dg wi).b ∧ (b.eval pi wo dg wi).b ≤ 1 / pi)) ∧
    (dot wi dg.Ns ≤ 0 → b.eval pi wo dg wi = Col3.zero) ∧
    b.eval pi wo dg wi = b.eval pi wo2 dg wi := by
  have hp : 0 ≤ 1 / pi := le_of_lt (one_div_pos.mpr hpi)
  have hc0 := clamp_nonneg (dot wi dg.Ns)
  have hc1 := clamp_le_one (dot wi dg.Ns)
  have comp : ∀ c : K, 0 ≤ c → c ≤ 1 →
      0 ≤ c * (1 / pi) * clamp (dot wi dg.Ns) ∧ c * (1 / pi) * clamp (dot wi dg.Ns) ≤ 1 / pi := by
    intro c h0 h1
    constructor
    · exact mul_nonneg (mul_nonneg h0 hp) hc0
    · calc c * (1 / pi) * clamp (dot wi dg.Ns) ≤ 1 * (1 / pi) * 1 :=
            mul_le_mul (mul_le_mul_of_nonneg_right h1 hp) hc1 hc0
              (mul_nonneg zero_le_one hp)
        _ = 1 / pi := by ring
  refine ⟨fun _ => ⟨comp _ hr.1 hr.2, comp _ hg.1 hg.2, comp _ hb.1 hb.2⟩, ?_, rfl⟩
  intro h
  simp only [Lambertian.eval, Col3.muls, Col3.zero, clamp_of_nonpos _ h, mul_zero]

/-- C11 at a concrete input: reflectivity `(1/2, 1, 0)`, shading normal `(0, 0, 1)`,
direction `(3/5, 0, 4/5)` and `pi = 22/7`. -/
theorem lambertian_eval_bounds_witness :
    (0 ≤ ((Lambertian.new (⟨1/2, 1, 0⟩ : Col3 ℚ)).eval (22/7) ⟨1, 0, 0⟩
        ⟨⟨0, 0, 1⟩, ⟨0, 0, 1⟩⟩ ⟨3/5, 0, 4/5⟩).r ∧
      ((Lambertian.new (⟨1/2, 1, 0⟩ : Col3 ℚ)).eval (22/7) ⟨1, 0, 0⟩
        ⟨⟨0, 0, 1⟩, ⟨0, 0, 1⟩⟩ ⟨3/5, 0, 4/5⟩).r ≤ 1 / (22/7)) ∧
    (0 ≤ ((Lambertian.new (⟨1/2, 1, 0⟩ : Col3 ℚ)).eval (22/7) ⟨1, 0, 0⟩
        ⟨⟨0, 0, 1⟩, ⟨0, 0, 1⟩⟩ ⟨3/5, 0, 4/5⟩).g ∧
      ((Lambertian.new (⟨1/2, 1, 0⟩ : Col3 ℚ)).eval (22/7) ⟨1, 0, 0⟩
        ⟨⟨0, 0, 1⟩, ⟨0, 0, 1⟩⟩ ⟨3/5, 0, 4/5⟩).g ≤ 1 / (22/7)) ∧
    (0 ≤ ((Lambertian.new (⟨1/2, 1, 0⟩ : Col3 ℚ)).eval (22/7) ⟨1, 0, 0⟩
        ⟨⟨0, 0, 1⟩, ⟨0, 0, 1⟩⟩ ⟨3/5, 0, 4/5⟩).b ∧
      ((Lambertian.new (⟨1/2, 1, 0⟩ : Col3 ℚ)).eval (22/7) ⟨1, 0, 0⟩
        ⟨⟨0, 0, 1⟩, ⟨0, 0, 1⟩⟩ ⟨3/5, 0, 4/5⟩).b ≤ 1 / (22/7)) :=
  (lambertian_eval_bounds (22/7) (by norm_num) (Lambertian.new (⟨1/2, 1, 0⟩ : Col3 ℚ))
    ⟨1, 0, 0⟩ ⟨0, 1, 0⟩ ⟨⟨0, 0, 1⟩, ⟨0, 0, 1⟩⟩ ⟨3/5, 0, 4/5⟩
    (by norm_num [Lambertian.new]) (by norm_num [Lambertian.new])
    (by norm_num [Lambertian.new])).1 (by norm_num [dot])

/-- C12, counterexample: transmittance `(1, 1, 1)`, geometric normal `(0, 0, 1)`, the
perturbed unit transmission normal `(3/5, 0, 4/5)` and the unit direction
`(24/25, 0, -7/25)`: `dot(wi, -dg.Ng) = 7/25 > 0`, but `dot(wi, -N) = -44/125` and `eval`
is the zero color. -/
theorem transmission_eval_counterexample :
    0 < dot (⟨24/25, 0, -7/25⟩ : Vec3 ℚ) (Vec3.neg ⟨0, 0, 1⟩) ∧
    (LambertianTransmission.new (⟨3/5, 0, 4/5⟩ : Vec3 ℚ) ⟨1, 1, 1⟩).eval (22/7) ⟨0, 0, 1⟩
        ⟨⟨0, 0, 1⟩, ⟨0, 0, 1⟩⟩ ⟨24/25, 0, -7/25⟩ = Col3.zero := by
  constructor
  · norm_num [dot, Vec3.neg]
  · have h1 : ¬ dot (⟨24/25, 0, -7/25⟩ : Vec3 ℚ) (Vec3.neg ⟨0, 0, 1⟩) ≤ 0 := by
      norm_num [dot, Vec3.neg]
    have h2 : dot (⟨24/25, 0, -7/25⟩ : Vec3 ℚ) (Vec3.neg ⟨3/5, 0, 4/5⟩) ≤ 0 := by
      norm_num [dot, Vec3.neg]
    simp only [LambertianTransmission.eval, LambertianTransmission.new, h1, if_false,
      clamp_of_nonpos _ h2, Col3.muls, Col3.zero, mul_zero]

/-- C12, amended: `eval(wo, dg, wi)` is exactly zero whenever `dot(wi, -dg.Ng) <= 0`; for
every `wi` with `dot(wi, -dg.Ng) > 0` it is `T * (1/pi) * clamp(dot(wi, -N))`, which is
`T * (1/pi) * dot(wi, -N)` when `0 <= dot(wi, -N) <= 1`, and it is not the zero color
exactly when `T` is not the zero color and `dot(wi, -N) > 0`. -/
theorem transmission_eval_cases (pi : K) (hpi : 0 < pi) (b : LambertianTransmission K)
    (wo : Vec3 K) (dg : DifferentialGeometry K) (wi : Vec3 K) :
    (dot wi dg.Ng.neg ≤ 0 → b.eval pi wo dg wi = Col3.zero) ∧
    (0 < dot wi dg.Ng.neg →
      b.eval pi wo dg wi = (b.T.muls (1 / pi)).muls (clamp (dot wi b.N.neg))) ∧
    (0 < dot wi dg.Ng.neg → 0 ≤ dot wi b.N.neg → dot wi b.N.neg ≤ 1 →
      b.eval pi wo dg wi = (b.T.muls (1 / pi)).muls (dot wi b.N.neg)) ∧
    (0 < dot wi dg.Ng.neg →
      (b.eval pi wo dg wi ≠ Col3.zero ↔ b.T ≠ Col3.zero ∧ 0 < dot wi b.N.neg)) := by
  have hp : (1 : K) / pi ≠ 0 := ne_of_gt (one_div_pos.mpr hpi)
  have hpos : 0 < dot wi dg.Ng.neg →
      b.eval pi wo dg wi = (b.T.muls (1 / pi)).muls (clamp (dot wi b.N.neg)) := by
    intro h
    simp only [LambertianTransmission.eval, not_le.mpr h, if_false, one_over_pi]
  refine ⟨?_, hpos, ?_, ?_⟩
  · intro h
    simp only [LambertianTransmission.eval, h, if_true]
  · intro h h0 h1
    rw [hpos h, clamp_of_mem _ h0 h1]
  · intro h
    rw [hpos h, Ne, muls_muls_eq_zero_iff _ _ _ hp, not_or, ← clamp_ne_zero_iff]

/-- C12 amended, at a concrete input: transmittance `(1, 1/2, 0)`, normals `(0, 0, 1)` and
the direction `(3/5, 0, -4/5)` below the surface, with `pi = 22/7`. -/
theorem transmission_eval_cases_witness :
    (LambertianTransmission.new (⟨0, 0, 1⟩ : Vec3 ℚ) ⟨1, 1/2, 0⟩).eval (22/7) ⟨0, 0, 1⟩
        ⟨⟨0, 0, 1⟩, ⟨0, 0, 1⟩⟩ ⟨3/5, 0, -4/5⟩ =
      ((LambertianTransmission.new (⟨0, 0, 1⟩ : Vec3 ℚ) ⟨1, 1/2, 0⟩).T.muls (1 / (22/7))).muls
        (dot (⟨3/5, 0, -4/5⟩ : Vec3 ℚ)
          (LambertianTransmission.new (⟨0, 0, 1⟩ : Vec3 ℚ) ⟨1, 1/2, 0⟩).N.neg) :=
  (transmission_eval_cases (22/7) (by norm_num)
    (LambertianTransmission.new (⟨0, 0, 1⟩ : Vec3 ℚ) ⟨1, 1/2, 0⟩) ⟨0, 0, 1⟩
    ⟨⟨0, 0, 1⟩, ⟨0, 0, 1⟩⟩ ⟨3/5, 0, -4/5⟩).2.2.1
    (by norm_num [dot, Vec3.neg]) (by norm_num [dot, Vec3.neg, LambertianTransmission.new])
    (by norm_num [dot, Vec3.neg, LambertianTransmission.new])

/-- The body of `LambertianHorizon::eval` in terms of its locals `w` and `z`. -/
theorem horizon_eval_unfold (pi : K) (b : LambertianHorizon K) (wo : Vec3 K)
    (dg : DifferentialGeometry K) (wi : Vec3 K) :
    b.eval pi wo dg wi =
      if dot wi dg.Ng ≤ 0 then Col3.zero
      else if b.evalW wi = 0 then (b.R.muls (one_over_pi pi)).muls (clamp (dot wi b.dz))
      else ((Col3.smul (b.evalZ dg wi) b.R).muls (one_over_pi pi)).muls (clamp (dot wi b.dz)) :=
  rfl

/-- The square of a clamped value is never negative. -/
theorem sqr_clamp_nonneg (x : K) : 0 ≤ sqr (clamp x) := mul_self_nonneg _

/-- The square of a clamped value vanishes exactly when the value is not positive. -/
theorem sqr_clamp_eq_zero_iff (x : K) : sqr (clamp x) = 0 ↔ x ≤ 0 := by
  rw [sqr, mul_self_eq_zero]
  constructor
  · intro h
    by_contra hx
    exact (clamp_ne_zero_iff x).mpr (not_le.mp hx) h
  · exact clamp_of_nonpos x

/-- The four tangent weights of `LambertianHorizon::eval` are all zero exactly when `wi`
is orthogonal to both tangent axes. -/
theorem horizon_evalW_eq_zero_iff (b : LambertianHorizon K) (wi : Vec3 K) :
    b.evalW wi = 0 ↔ dot wi b.dx = 0 ∧ dot wi b.dy = 0 := by
  have px : dot wi b.dx.pos = dot wi b.dx := rfl
  have py : dot wi b.dy.pos = dot wi b.dy := rfl
  have h1 := sqr_clamp_nonneg (-dot wi b.dx)
  have h2 := sqr_clamp_nonneg (dot wi b.dx)
  have h3 := sqr_clamp_nonneg (-dot wi b.dy)
  have h4 := sqr_clamp_nonneg (dot wi b.dy)
  have e1 := sqr_clamp_eq_zero_iff (-dot wi b.dx)
  have e2 := sqr_clamp_eq_zero_iff (dot wi b.dx)
  have e3 := sqr_clamp_eq_zero_iff (-dot wi b.dy)
  have e4 := sqr_clamp_eq_zero_iff (dot wi b.dy)
  rw [LambertianHorizon.evalW, dot_neg_right, dot_neg_right, px, py]
  constructor
  · intro h
    have a1 := e1.mp (by linarith)
    have a2 := e2.mp (by linarith)
    have a3 := e3.mp (by linarith)
    have a4 := e4.mp (by linarith)
    exact ⟨by linarith, by linarith⟩
  · rintro ⟨hx, hy⟩
    rw [e1.mpr (by linarith), e2.mpr (by linarith), e3.mpr (by linarith),
      e4.mpr (by linarith)]
    ring

/-- C13, counterexample: frame `(1,0,0)`, `(0,1,0)`, `(0,0,1)`, reflectivity `(1,1,1)`,
normals `(0,0,1)` and the direction `wi = (0,0,2)` along the reflection axis: `wi` is above
the geometric horizon and orthogonal to both tangent axes, and `eval` is
`R * (1/pi) * clamp(2) = R * (1/pi)`, not `R * (1/pi) * max(0, 2)`. -/
theorem horizon_eval_axis_counterexample :
    0 < dot (⟨0, 0, 2⟩ : Vec3 ℚ) ⟨0, 0, 1⟩ ∧
    dot (⟨0, 0, 2⟩ : Vec3 ℚ) ⟨1, 0, 0⟩ = 0 ∧ dot (⟨0, 0, 2⟩ : Vec3 ℚ) ⟨0, 1, 0⟩ = 0 ∧
    (LambertianHorizon.new (⟨1, 0, 0⟩ : Vec3 ℚ) ⟨0, 1, 0⟩ ⟨0, 0, 1⟩ ⟨1, 1, 1⟩ 0 0 0 0 1 1).eval
        (22/7) ⟨0, 0, 1⟩ ⟨⟨0, 0, 1⟩, ⟨0, 0, 1⟩⟩ ⟨0, 0, 2⟩ ≠
      ((⟨1, 1, 1⟩ : Col3 ℚ).muls (1 / (22/7))).muls
        (max 0 (dot (⟨0, 0, 2⟩ : Vec3 ℚ) ⟨0, 0, 1⟩)) ∧
    (LambertianHorizon.new (⟨1, 0, 0⟩ : Vec3 ℚ) ⟨0, 1, 0⟩ ⟨0, 0, 1⟩ ⟨1, 1, 1⟩ 0 0 0 0 1 1).eval
        (22/7) ⟨0, 0, 1⟩ ⟨⟨0, 0, 1⟩, ⟨0, 0, 1⟩⟩ ⟨0, 0, 2⟩ = ⟨7/22, 7/22, 7/22⟩ := by
  have hw : (LambertianHorizon.new (⟨1, 0, 0⟩ : Vec3 ℚ) ⟨0, 1, 0⟩ ⟨0, 0, 1⟩ ⟨1, 1, 1⟩
      0 0 0 0 1 1).evalW ⟨0, 0, 2⟩ = 0 := by
    rw [horizon_evalW_eq_zero_iff]
    norm_num [dot, LambertianHorizon.new]
  have hg : ¬ dot (⟨0, 0, 2⟩ : Vec3 ℚ) ⟨0, 0, 1⟩ ≤ 0 := by norm_num [dot]
  have hc : clamp (dot (⟨0, 0, 2⟩ : Vec3 ℚ) ⟨0, 0, 1⟩) = 1 := by
    norm_num [clamp, dot]
  have he : (LambertianHorizon.new (⟨1, 0, 0⟩ : Vec3 ℚ) ⟨0, 1, 0⟩ ⟨0, 0, 1⟩ ⟨1, 1, 1⟩
      0 0 0 0 1 1).eval (22/7) ⟨0, 0, 1⟩ ⟨⟨0, 0, 1⟩, ⟨0, 0, 1⟩⟩ ⟨0, 0, 2⟩ =
      ⟨7/22, 7/22, 7/22⟩ := by
    rw [horizon_eval_unfold, if_neg hg, if_pos hw]
    simp only [LambertianHorizon.new, hc, Col3.muls, one_over_pi]
    norm_num
  refine ⟨by norm_num [dot], by norm_num [dot], by norm_num [dot], ?_, he⟩
  rw [he]
  norm_num [Col3.muls, dot]

/-- C13, amended: `eval(wo, dg, wi)` is exactly zero whenever `dot(wi, dg.Ng) <= 0`; and
whenever `dot(wi, dg.Ng) > 0` and all four tangent weights are zero (`dot(wi, dx) = 0` and
`dot(wi, dy) = 0`), `eval` equals `R * (1/pi) * clamp(dot(wi, dz))` with no attenuation,
whatever the horizon angles, blend and strength are; this is
`R * (1/pi) * max(0, dot(wi, dz))` whenever `dot(wi, dz) <= 1`. -/
theorem horizon_eval_axis (pi : K) (b : LambertianHorizon K) (wo : Vec3 K)
    (dg : DifferentialGeometry K) (wi : Vec3 K) :
    (dot wi dg.Ng ≤ 0 → b.eval pi wo dg wi = Col3.zero) ∧
    (b.evalW wi = 0 ↔ dot wi b.dx = 0 ∧ dot wi b.dy = 0) ∧
    (0 < dot wi dg.Ng → dot wi b.dx = 0 → dot wi b.dy = 0 →
      b.eval pi wo dg wi = (b.R.muls (1 / pi)).muls (clamp (dot wi b.dz))) ∧
    (0 < dot wi dg.Ng → dot wi b.dx = 0 → dot wi b.dy = 0 → dot wi b.dz ≤ 1 →
      b.eval pi wo dg wi = (b.R.muls (1 / pi)).muls (max 0 (dot wi b.dz))) := by
  have main : 0 < dot wi dg.Ng → dot wi b.dx = 0 → dot wi b.dy = 0 →
      b.eval pi wo dg wi = (b.R.muls (1 / pi)).muls (clamp (dot wi b.dz)) := by
    intro h hx hy
    rw [horizon_eval_unfold, if_neg (not_le.mpr h),
      if_pos ((horizon_evalW_eq_zero_iff b wi).mpr ⟨hx, hy⟩), one_over_pi]
  refine ⟨?_, horizon_evalW_eq_zero_iff b wi, main, ?_⟩
  · intro h
    rw [horizon_eval_unfold, if_pos h]
  · intro h hx hy h1
    rw [main h hx hy, clamp_eq_max _ h1]

/-- C13 amended, at a concrete input: the unit direction `wi = dz = (0, 0, 1)` for the
frame `(1,0,0)`, `(0,1,0)`, `(0,0,1)`, with horizon angles `1, 2, 3, 4`, blend `1/10` and
strength `5`. -/
theorem horizon_eval_axis_witness :
    (LambertianHorizon.new (⟨1, 0, 0⟩ : Vec3 ℚ) ⟨0, 1, 0⟩ ⟨0, 0, 1⟩ ⟨1, 1/2, 0⟩ 1 2 3 4
        (1/10) 5).eval (22/7) ⟨0, 0, 1⟩ ⟨⟨0, 0, 1⟩, ⟨0, 0, 1⟩⟩ ⟨0, 0, 1⟩ =
      ((LambertianHorizon.new (⟨1, 0, 0⟩ : Vec3 ℚ) ⟨0, 1, 0⟩ ⟨0, 0, 1⟩ ⟨1, 1/2, 0⟩ 1 2 3 4
        (1/10) 5).R.muls (1 / (22/7))).muls
        (max 0 (dot (⟨0, 0, 1⟩ : Vec3 ℚ)
          (LambertianHorizon.new (⟨1, 0, 0⟩ : Vec3 ℚ) ⟨0, 1, 0⟩ ⟨0, 0, 1⟩ ⟨1, 1/2, 0⟩ 1 2 3 4
            (1/10) 5).dz)) :=
  (horizon_eval_axis (22/7)
    (LambertianHorizon.new (⟨1, 0, 0⟩ : Vec3 ℚ) ⟨0, 1, 0⟩ ⟨0, 0, 1⟩ ⟨1, 1/2, 0⟩ 1 2 3 4
      (1/10) 5) ⟨0, 0, 1⟩ ⟨⟨0, 0, 1⟩, ⟨0, 0, 1⟩⟩ ⟨0, 0, 1⟩).2.2.2
    (by norm_num [dot]) (by norm_num [dot, LambertianHorizon.new])
    (by norm_num [dot, LambertianHorizon.new]) (by norm_num [dot, LambertianHorizon.new])

/-- C14: for `Lambertian` and `LambertianTransmission`, `sample` writes to `wi` the
direction drawn by `cosineSampleHemisphere` about the variant's axis (`dg.Ns`, resp. `-N`)
and returns exactly `eval` for that written direction; `pdf` is the cosine-weighted density
`dot(wi, axis) / pi`, and it is strictly positive at every direction at which `eval` is not
the zero color. -/
theorem sample_eval_pdf_consistent (pi : K) (hpi : 0 < pi)
    (cosineSampleHemisphere : K → K → Vec3 K → Sample3 K) (b : Lambertian K)
    (bt : LambertianTransmission K) (wo : Vec3 K) (dg : DifferentialGeometry K) (s : Vec2 K)
    (wi : Vec3 K) :
    ((b.sample pi cosineSampleHemisphere wo dg s).2 = cosineSampleHemisphere s.x s.y dg.Ns ∧
      (b.sample pi cosineSampleHemisphere wo dg s).1 =
        b.eval pi wo dg (b.sample pi cosineSampleHemisphere wo dg s).2.value) ∧
    ((bt.sample pi cosineSampleHemisphere wo dg s).2 =
        cosineSampleHemisphere s.x s.y bt.N.neg ∧
      (bt.sample pi cosineSampleHemisphere wo dg s).1 =
        bt.eval pi wo dg (bt.sample pi cosineSampleHemisphere wo dg s).2.value) ∧
    (b.pdf pi wo dg wi = dot wi dg.Ns / pi ∧ bt.pdf pi wo dg wi = dot wi bt.N.neg / pi) ∧
    (b.eval pi wo dg wi ≠ Col3.zero → 0 < b.pdf pi wo dg wi) ∧
    (bt.eval pi wo dg wi ≠ Col3.zero → 0 < bt.pdf pi wo dg wi) := by
  have hp : (1 : K) / pi ≠ 0 := ne_of_gt (one_div_pos.mpr hpi)
  refine ⟨⟨rfl, rfl⟩, ⟨rfl, rfl⟩, ⟨rfl, rfl⟩, ?_, ?_⟩
  · intro h
    rw [Lambertian.eval, Ne, muls_muls_eq_zero_iff _ _ _ hp, not_or] at h
    exact div_pos ((clamp_ne_zero_iff _).mp h.2) hpi
  · intro h
    by_cases hg : dot wi dg.Ng.neg ≤ 0
    · exact absurd (by simp only [LambertianTransmission.eval, hg, if_true]) h
    · rw [LambertianTransmission.eval, if_neg hg, one_over_pi, Ne,
        muls_muls_eq_zero_iff _ _ _ hp, not_or] at h
      exact div_pos ((clamp_ne_zero_iff _).mp h.2) hpi

/-- C14 at a concrete input: reflectivity and transmittance `(1, 1/2, 0)`, normals
`(0, 0, 1)`, transmission normal `(0, 0, 1)` and the direction `(3/5, 0, 4/5)` for the
reflection, with `pi = 22/7`. -/
theorem sample_eval_pdf_consistent_witness :
    ((Lambertian.new (⟨1, 1/2, 0⟩ : Col3 ℚ)).eval (22/7) ⟨0, 0, 1⟩ ⟨⟨0, 0, 1⟩, ⟨0, 0, 1⟩⟩
        ⟨3/5, 0, 4/5⟩ ≠ Col3.zero ∧
      0 < (Lambertian.new (⟨1, 1/2, 0⟩ : Col3 ℚ)).pdf (22/7) ⟨0, 0, 1⟩ ⟨⟨0, 0, 1⟩, ⟨0, 0, 1⟩⟩
        ⟨3/5, 0, 4/5⟩) ∧
    ((LambertianTransmission.new (⟨0, 0, 1⟩ : Vec3 ℚ) ⟨1, 1/2, 0⟩).eval (22/7) ⟨0, 0, 1⟩
        ⟨⟨0, 0, 1⟩, ⟨0, 0, 1⟩⟩ ⟨3/5, 0, -4/5⟩ ≠ Col3.zero ∧
      0 < (LambertianTransmission.new (⟨0, 0, 1⟩ : Vec3 ℚ) ⟨1, 1/2, 0⟩).pdf (22/7) ⟨0, 0, 1⟩
        ⟨⟨0, 0, 1⟩, ⟨0, 0, 1⟩⟩ ⟨3/5, 0, -4/5⟩) :=
  ⟨⟨by norm_num [Lambertian.eval, Lambertian.new, Col3.muls, Col3.zero, clamp, dot],
    (sample_eval_pdf_consistent (22/7) (by norm_num) hemisphereQ
      (Lambertian.new (⟨1, 1/2, 0⟩ : Col3 ℚ))
      (LambertianTransmission.new (⟨0, 0, 1⟩ : Vec3 ℚ) ⟨1, 1/2, 0⟩) ⟨0, 0, 1⟩
      ⟨⟨0, 0, 1⟩, ⟨0, 0, 1⟩⟩ ⟨1/2, 1/2⟩ ⟨3/5, 0, 4/5⟩).2.2.2.1
      (by norm_num [Lambertian.eval, Lambertian.new, Col3.muls, Col3.zero, clamp, dot])⟩,
   ⟨by norm_num [LambertianTransmission.eval, LambertianTransmission.new, Col3.muls,
      Col3.zero, clamp, dot, Vec3.neg, one_over_pi],
    (sample_eval_pdf_consistent (22/7) (by norm_num) hemisphereQ
      (Lambertian.new (⟨1, 1/2, 0⟩ : Col3 ℚ))
      (LambertianTransmission.new (⟨0, 0, 1⟩ : Vec3 ℚ) ⟨1, 1/2, 0⟩) ⟨0, 0, 1⟩
      ⟨⟨0, 0, 1⟩, ⟨0, 0, 1⟩⟩ ⟨1/2, 1/2⟩ ⟨3/5, 0, -4/5⟩).2.2.2.2
      (by norm_num [LambertianTransmission.eval, LambertianTransmission.new, Col3.muls,
        Col3.zero, clamp, dot, Vec3.neg, one_over_pi])⟩⟩

/-- C15: there are `LambertianHorizon` parameters (an orthonormal frame, reflectivity,
horizon angles, `blend > 0`, strength) and a direction `wi` above the geometric horizon
with `pdf(wo, dg, wi) > 0` such that `eval(wo, dg, wi)` differs from
`R * pdf(wo, dg, wi)`; `pdf` and the direction `sample` draws use only the cosine-weighted
hemisphere about `dz`, so they agree for any two models with the same `dz`, whatever
their horizon angles, blend and strength are. -/
theorem horizon_sample_not_proportional (pi : K) (hpi : 0 < pi)
    (cosineSampleHemisphere : K → K → Vec3 K → Sample3 K) (b b2 : LambertianHorizon K)
    (wo : Vec3 K) (dg : DifferentialGeometry K) (s : Vec2 K) (wi : Vec3 K)
    (hdz : b.dz = b2.dz) :
    (∃ (h : LambertianHorizon K) (g : DifferentialGeometry K) (v : Vec3 K),
      (⟨h.dx, h.dy, h.dz⟩ : LinearSpace3 K).Orthonormal ∧ 0 < h.blend ∧ 0 < dot v g.Ng ∧
      0 < h.pdf pi wo g v ∧ h.eval pi wo g v ≠ h.R.muls (h.pdf pi wo g v)) ∧
    (b.pdf pi wo dg wi = dot wi b.dz / pi ∧
      (b.sample pi cosineSampleHemisphere wo dg s).2 = cosineSampleHemisphere s.x s.y b.dz) ∧
    b.pdf pi wo dg wi = b2.pdf pi wo dg wi ∧
    (b.sample pi cosineSampleHemisphere wo dg s).2 =
      (b2.sample pi cosineSampleHemisphere wo dg s).2 := by
  refine ⟨?_, ⟨rfl, rfl⟩, ?_, ?_⟩
  · refine ⟨LambertianHorizon.new ⟨1, 0, 0⟩ ⟨0, 1, 0⟩ ⟨0, 0, 1⟩ ⟨1, 1, 1⟩ 1 1 1 1 (1/10) 1,
      ⟨⟨0, 0, 1⟩, ⟨0, 0, 1⟩⟩, ⟨3/5, 0, 4/5⟩, ?_, ?_, ?_, ?_, ?_⟩
    · simp [LinearSpace3.Orthonormal, LambertianHorizon.new, dot]
    · norm_num [LambertianHorizon.new]
    · norm_num [dot]
    · have h1 : dot (⟨3/5, 0, 4/5⟩ : Vec3 K) ⟨0, 0, 1⟩ = 4/5 := by norm_num [dot]
      simp only [LambertianHorizon.pdf, cosineSampleHemispherePDF, LambertianHorizon.new, h1]
      positivity
    · have hg : ¬ dot (⟨3/5, 0, 4/5⟩ : Vec3 K) ⟨0, 0, 1⟩ ≤ 0 := by norm_num [dot]
      have hw : (LambertianHorizon.new (⟨1, 0, 0⟩ : Vec3 K) ⟨0, 1, 0⟩ ⟨0, 0, 1⟩ ⟨1, 1, 1⟩
          1 1 1 1 (1/10) 1).evalW ⟨3/5, 0, 4/5⟩ ≠ 0 := by
        rw [Ne, horizon_evalW_eq_zero_iff]
        norm_num [dot, LambertianHorizon.new]
      have hr : clamp ((dot (⟨3/5, 0, 4/5⟩ : Vec3 K) ⟨0, 0, 1⟩ - 1 * 1 + 1 / 10) /
          (2 * (1 / 10))) = 0 := by
        apply clamp_of_nonpos
        norm_num [dot]
      have hz : (LambertianHorizon.new (⟨1, 0, 0⟩ : Vec3 K) ⟨0, 1, 0⟩ ⟨0, 0, 1⟩ ⟨1, 1, 1⟩
          1 1 1 1 (1/10) 1).evalZ ⟨⟨0, 0, 1⟩, ⟨0, 0, 1⟩⟩ ⟨3/5, 0, 4/5⟩ = 0 := by
        simp only [LambertianHorizon.evalZ, LambertianHorizon.new, hr, mul_zero, add_zero,
          zero_div]
      have h1 : dot (⟨3/5, 0, 4/5⟩ : Vec3 K) ⟨0, 0, 1⟩ = 4/5 := by norm_num [dot]
      rw [horizon_eval_unfold, if_neg hg, if_neg hw, hz]
      simp only [LambertianHorizon.pdf, cosineSampleHemispherePDF, LambertianHorizon.new,
        Col3.smul, Col3.muls, h1, Ne, Col3.mk.injEq, not_and]
      intro h2
      have h3 : (0 : K) < 1 * (4 / 5 / pi) := by positivity
      rw [zero_mul, zero_mul, zero_mul] at h2
      exact absurd h2 (ne_of_lt h3)
  · simp only [LambertianHorizon.pdf, hdz]
  · simp only [LambertianHorizon.sample, hdz]

/-- C15 at a concrete input: two models over the rationals with the same frame and
different horizon angles, blend and strength have the same `pdf` and draw the same
direction. -/
theorem horizon_sample_not_proportional_witness :
    (LambertianHorizon.new (⟨1, 0, 0⟩ : Vec3 ℚ) ⟨0, 1, 0⟩ ⟨0, 0, 1⟩ ⟨1, 1, 1⟩ 1 1 1 1
        (1/10) 1).pdf (22/7) ⟨0, 0, 1⟩ ⟨⟨0, 0, 1⟩, ⟨0, 0, 1⟩⟩ ⟨3/5, 0, 4/5⟩ =
      (LambertianHorizon.new (⟨1, 0, 0⟩ : Vec3 ℚ) ⟨0, 1, 0⟩ ⟨0, 0, 1⟩ ⟨1, 1, 1⟩ 0 2 3 4
        (1/2) 5).pdf (22/7) ⟨0, 0, 1⟩ ⟨⟨0, 0, 1⟩, ⟨0, 0, 1⟩⟩ ⟨3/5, 0, 4/5⟩ ∧
    ((LambertianHorizon.new (⟨1, 0, 0⟩ : Vec3 ℚ) ⟨0, 1, 0⟩ ⟨0, 0, 1⟩ ⟨1, 1, 1⟩ 1 1 1 1
        (1/10) 1).sample (22/7) hemisphereQ ⟨0, 0, 1⟩ ⟨⟨0, 0, 1⟩, ⟨0, 0, 1⟩⟩ ⟨1/2, 1/2⟩).2 =
      ((LambertianHorizon.new (⟨1, 0, 0⟩ : Vec3 ℚ) ⟨0, 1, 0⟩ ⟨0, 0, 1⟩ ⟨1, 1, 1⟩ 0 2 3 4
        (1/2) 5).sample (22/7) hemisphereQ ⟨0, 0, 1⟩ ⟨⟨0, 0, 1⟩, ⟨0, 0, 1⟩⟩ ⟨1/2, 1/2⟩).2 :=
  (horizon_sample_not_proportional (22/7) (by norm_num) hemisphereQ
    (LambertianHorizon.new (⟨1, 0, 0⟩ : Vec3 ℚ) ⟨0, 1, 0⟩ ⟨0, 0, 1⟩ ⟨1, 1, 1⟩ 1 1 1 1 (1/10) 1)
    (LambertianHorizon.new (⟨1, 0, 0⟩ : Vec3 ℚ) ⟨0, 1, 0⟩ ⟨0, 0, 1⟩ ⟨1, 1, 1⟩ 0 2 3 4 (1/2) 5)
    ⟨0, 0, 1⟩ ⟨⟨0, 0, 1⟩, ⟨0, 0, 1⟩⟩ ⟨1/2, 1/2⟩ ⟨3/5, 0, 4/5⟩ rfl).2.2

/-- C20: for `LambertianHorizon` with every reflectivity component `>= 0` and all
parameter values: the attenuation scalar `z` computed in `eval` lies in `[0,1]` whenever
the weight sum `w` is non-zero, and every component of `eval(wo, dg, wi)` lies between `0`
and the corresponding component of the unattenuated value
`R * (1/pi) * clamp(dot(wi, dz))`. -/
theorem horizon_attenuation_bounds (pi : K) (hpi : 0 < pi) (b : LambertianHorizon K)
    (wo : Vec3 K) (dg : DifferentialGeometry K) (wi : Vec3 K)
    (hR : 0 ≤ b.R.r ∧ 0 ≤ b.R.g ∧ 0 ≤ b.R.b) :
    (b.evalW wi ≠ 0 → 0 ≤ b.evalZ dg wi ∧ b.evalZ dg wi ≤ 1) ∧
    (0 ≤ (b.eval pi wo dg wi).r ∧
      (b.eval pi wo dg wi).r ≤ ((b.R.muls (one_over_pi pi)).muls (clamp (dot wi b.dz))).r) ∧
    (0 ≤ (b.eval pi wo dg wi).g ∧
      (b.eval pi wo dg wi).g ≤ ((b.R.muls (one_over_pi pi)).muls (clamp (dot wi b.dz))).g) ∧
    (0 ≤ (b.eval pi wo dg wi).b ∧
      (b.eval pi wo dg wi).b ≤ ((b.R.muls (one_over_pi pi)).muls (clamp (dot wi b.dz))).b) := by
  have hp : 0 ≤ one_over_pi pi := le_of_lt (one_div_pos.mpr hpi)
  have hc := clamp_nonneg (dot wi b.dz)
  have hz : b.evalW wi ≠ 0 → 0 ≤ b.evalZ dg wi ∧ b.evalZ dg wi ≤ 1 := by
    intro hw
    have w1 := sqr_clamp_nonneg (dot wi b.dx.neg)
    have w2 := sqr_clamp_nonneg (dot wi b.dx.pos)
    have w3 := sqr_clamp_nonneg (dot wi b.dy.neg)
    have w4 := sqr_clamp_nonneg (dot wi b.dy.pos)
    have hwpos : 0 < b.evalW wi := by
      apply lt_of_le_of_ne _ (Ne.symm hw)
      unfold LambertianHorizon.evalW
      linarith
    have z1 := clamp_nonneg ((dot wi dg.Ns - b.strength * b.nhx + b.blend) / (2 * b.blend))
    have z2 := clamp_nonneg ((dot wi dg.Ns - b.strength * b.phx + b.blend) / (2 * b.blend))
    have z3 := clamp_nonneg ((dot wi dg.Ns - b.strength * b.nhy + b.blend) / (2 * b.blend))
    have z4 := clamp_nonneg ((dot wi dg.Ns - b.strength * b.phy + b.blend) / (2 * b.blend))
    have u1 := clamp_le_one ((dot wi dg.Ns - b.strength * b.nhx + b.blend) / (2 * b.blend))
    have u2 := clamp_le_one ((dot wi dg.Ns - b.strength * b.phx + b.blend) / (2 * b.blend))
    have u3 := clamp_le_one ((dot wi dg.Ns - b.strength * b.nhy + b.blend) / (2 * b.blend))
    have u4 := clamp_le_one ((dot wi dg.Ns - b.strength * b.phy + b.blend) / (2 * b.blend))
    unfold LambertianHorizon.evalZ
    constructor
    · apply div_nonneg _ (le_of_lt hwpos)
      have := mul_nonneg w1 z1
      have := mul_nonneg w2 z2
      have := mul_nonneg w3 z3
      have := mul_nonneg w4 z4
      linarith
    · rw [div_le_one hwpos]
      unfold LambertianHorizon.evalW
      have := mul_le_of_le_one_right w1 u1
      have := mul_le_of_le_one_right w2 u2
      have := mul_le_of_le_one_right w3 u3
      have := mul_le_of_le_one_right w4 u4
      linarith
  have comp : ∀ c : K, 0 ≤ c → ∀ e : K,
      (e = 0 ∨ e = c * one_over_pi pi * clamp (dot wi b.dz) ∨
        (b.evalW wi ≠ 0 ∧ e = b.evalZ dg wi * c * one_over_pi pi * clamp (dot wi b.dz))) →
      0 ≤ e ∧ e ≤ c * one_over_pi pi * clamp (dot wi b.dz) := by
    intro c h0 e he
    have hU : 0 ≤ c * one_over_pi pi * clamp (dot wi b.dz) :=
      mul_nonneg (mul_nonneg h0 hp) hc
    rcases he with he | he | ⟨hw, he⟩
    · rw [he]; exact ⟨le_refl _, hU⟩
    · rw [he]; exact ⟨hU, le_refl _⟩
    · obtain ⟨za, zb⟩ := hz hw
      have e2 : e = b.evalZ dg wi * (c * one_over_pi pi * clamp (dot wi b.dz)) := by
        rw [he]; ring
      rw [e2]
      exact ⟨mul_nonneg za hU, mul_le_of_le_one_left hU zb⟩
  refine ⟨hz, ?_, ?_, ?_⟩
  · apply comp _ hR.1
    rw [horizon_eval_unfold]
    by_cases h1 : dot wi dg.Ng ≤ 0
    · left; simp only [h1, if_true, Col3.zero]
    · by_cases h2 : b.evalW wi = 0
      · right; left; simp only [h1, h2, if_true, if_false, Col3.muls]
      · right; right; exact ⟨h2, by simp only [h1, h2, if_false, Col3.muls, Col3.smul]⟩
  · apply comp _ hR.2.1
    rw [horizon_eval_unfold]
    by_cases h1 : dot wi dg.Ng ≤ 0
    · left; simp only [h1, if_true, Col3.zero]
    · by_cases h2 : b.evalW wi = 0
      · right; left; simp only [h1, h2, if_true, if_false, Col3.muls]
      · right; right; exact ⟨h2, by simp only [h1, h2, if_false, Col3.muls, Col3.smul]⟩
  · apply comp _ hR.2.2
    rw [horizon_eval_unfold]
    by_cases h1 : dot wi dg.Ng ≤ 0
    · left; simp only [h1, if_true, Col3.zero]
    · by_cases h2 : b.evalW wi = 0
      · right; left; simp only [h1, h2, if_true, if_false, Col3.muls]
      · right; right; exact ⟨h2, by simp only [h1, h2, if_false, Col3.muls, Col3.smul]⟩

/-- C20 at a concrete input: frame `(1,0,0)`, `(0,1,0)`, `(0,0,1)`, reflectivity
`(1, 1/2, 0)`, horizon angles `0, 4/5, 0, 0`, blend `1/10`, strength `1`, normals
`(0,0,1)`, the direction `(3/5, 0, 4/5)` and `pi = 22/7`. -/
theorem horizon_attenuation_bounds_witness :
    0 ≤ ((LambertianHorizon.new (⟨1, 0, 0⟩ : Vec3 ℚ) ⟨0, 1, 0⟩ ⟨0, 0, 1⟩ ⟨1, 1/2, 0⟩
        0 (4/5) 0 0 (1/10) 1).eval (22/7) ⟨0, 0, 1⟩ ⟨⟨0, 0, 1⟩, ⟨0, 0, 1⟩⟩ ⟨3/5, 0, 4/5⟩).r ∧
    ((LambertianHorizon.new (⟨1, 0, 0⟩ : Vec3 ℚ) ⟨0, 1, 0⟩ ⟨0, 0, 1⟩ ⟨1, 1/2, 0⟩
        0 (4/5) 0 0 (1/10) 1).eval (22/7) ⟨0, 0, 1⟩ ⟨⟨0, 0, 1⟩, ⟨0, 0, 1⟩⟩ ⟨3/5, 0, 4/5⟩).r ≤
      (((LambertianHorizon.new (⟨1, 0, 0⟩ : Vec3 ℚ) ⟨0, 1, 0⟩ ⟨0, 0, 1⟩ ⟨1, 1/2, 0⟩
        0 (4/5) 0 0 (1/10) 1).R.muls (one_over_pi (22/7))).muls
        (clamp (dot (⟨3/5, 0, 4/5⟩ : Vec3 ℚ)
          (LambertianHorizon.new (⟨1, 0, 0⟩ : Vec3 ℚ) ⟨0, 1, 0⟩ ⟨0, 0, 1⟩ ⟨1, 1/2, 0⟩
            0 (4/5) 0 0 (1/10) 1).dz))).r :=
  (horizon_attenuation_bounds (22/7) (by norm_num)
    (LambertianHorizon.new (⟨1, 0, 0⟩ : Vec3 ℚ) ⟨0, 1, 0⟩ ⟨0, 0, 1⟩ ⟨1, 1/2, 0⟩ 0 (4/5) 0 0
      (1/10) 1) ⟨0, 0, 1⟩ ⟨⟨0, 0, 1⟩, ⟨0, 0, 1⟩⟩ ⟨3/5, 0, 4/5⟩
    (by norm_num [LambertianHorizon.new])).2.1

end ScatteringProperties

end embree
